import Mathlib

/-!
Verification development for the ip-opt-gui repository.

The Go sources are shallowly embedded: Go strings are modelled as `List Char`
(`Str`), byte slices and file contents likewise; `time.Duration` (an int64
count of nanoseconds) is modelled as `Int`; `float64` arithmetic on success
rates and interpolated quantiles is modelled exactly over `ℚ`, with the final
`time.Duration(...)` conversion modelled as truncation toward zero; the file
system is an association list from (directory, basename) pairs to contents,
and fallible OS writes take explicit failure oracles. Context cancellation
and network lookups/dials are modelled by explicit environment oracles that
return, per observation point, what the corresponding Go call would return.
-/

/-! ## Text model: Go strings as `List Char` -/

abbrev Str := List Char

/-- Model of Go `unicode.IsSpace`: the ASCII whitespace range plus the
Unicode space characters Go recognizes. -/
def isSpace (c : Char) : Bool :=
  let n := c.toNat
  (9 ≤ n && n ≤ 13) || n == 32 || n == 0x85 || n == 0xA0 || n == 0x1680 ||
    (0x2000 ≤ n && n ≤ 0x200A) || n == 0x2028 || n == 0x2029 ||
    n == 0x202F || n == 0x205F || n == 0x3000

/-- Model of Go `strings.TrimSpace`. -/
def trimSpace (s : Str) : Str :=
  ((s.dropWhile isSpace).reverse.dropWhile isSpace).reverse

/-- Model of Go `strings.TrimRight(s, "\n")`. -/
def trimRightNL (s : Str) : Str :=
  (s.reverse.dropWhile (fun c => c == '\n')).reverse

/-- Model of Go `strings.Split(s, sep)` for a one-character separator:
always returns at least one (possibly empty) field. -/
def splitOnChar (sep : Char) : Str → List Str
  | [] => [[]]
  | c :: rest =>
    if c = sep then [] :: splitOnChar sep rest
    else
      match splitOnChar sep rest with
      | [] => [[c]]
      | l :: ls => (c :: l) :: ls

/-- Model of Go `strings.Split(s, "\n")`. -/
def splitLines : Str → List Str := splitOnChar '\n'

/-- Model of Go `strings.Join(lines, "\n")`. -/
def joinLines : List Str → Str
  | [] => []
  | [l] => l
  | l :: ls => l ++ '\n' :: joinLines ls

/-- Left-to-right non-overlapping replacement of `"\r\n"` by `"\n"`,
the first half of Go `normalizeNewlines`. -/
def replCRLF : Str → Str
  | '\r' :: '\n' :: rest => '\n' :: replCRLF rest
  | c :: rest => c :: replCRLF rest
  | [] => []

/-- Model of the Go helper `normalizeNewlines`: `strings.ReplaceAll(s,
"\r\n", "\n")` followed by `strings.ReplaceAll(s, "\r", "\n")`. -/
def normalizeNewlines (s : Str) : Str :=
  (replCRLF s).map (fun c => if c = '\r' then '\n' else c)

/-! ## hostsfile package: managed block build and merge -/

def beginMarker : Str := "# ip-opt-gui begin".data

def endMarker : Str := "# ip-opt-gui end".data

structure Mapping where
  IP : Str
  Domain : Str

/-- The line `BuildManagedBlock` emits for one mapping: `none` when the
trimmed IP or domain is blank (the Go loop `continue`s those). -/
def mappingLine? (m : Mapping) : Option Str :=
  let ip := trimSpace m.IP
  let d := trimSpace m.Domain
  if ip = [] ∨ d = [] then none else some (ip ++ ' ' :: d)

/-- Model of `BuildManagedBlock`: begin marker line, one `<ip> <domain>`
line per non-blank mapping in order, end marker line. -/
def BuildManagedBlock (mappings : List Mapping) : Str :=
  beginMarker ++ '\n' ::
    mappings.foldr
      (fun m acc =>
        match mappingLine? m with
        | some l => l ++ '\n' :: acc
        | none => acc)
      (endMarker ++ ['\n'])

/-- The line scan inside `ApplyManagedBlock`: drop every managed region
(any line trimming to the begin marker and everything up to and including
the next line trimming to the end marker), keep all other lines. The Go
loop's `inManaged` flag is the second argument. -/
def stripManaged : List Str → Bool → List Str
  | [], _ => []
  | line :: rest, inManaged =>
    let lineTrim := trimSpace line
    if inManaged then
      (if lineTrim = endMarker then stripManaged rest false
       else stripManaged rest true)
    else if lineTrim = beginMarker then stripManaged rest true
    else line :: stripManaged rest false

/-- Model of `ApplyManagedBlock`: normalize newlines, delete existing
managed regions, trim trailing newlines, re-terminate with a single `\n`
when non-empty, then append the (newline-normalized) new block. -/
def ApplyManagedBlock (existing block : Str) : Str :=
  let lines := splitLines (normalizeNewlines existing)
  let out := stripManaged lines false
  let next := trimRightNL (joinLines out)
  let next2 := if next ≠ [] then next ++ ['\n'] else next
  next2 ++ normalizeNewlines block

/-- Number of lines of `s` whose trimmed content is exactly `marker` —
the sense in which the merge result must contain "exactly one" begin
marker line and end marker line. -/
def markerLineCount (s marker : Str) : Nat :=
  ((splitLines s).filter (fun l => trimSpace l = marker)).length

/-! ## Timestamps and the file-system model -/

/-- A wall-clock instant, the part of Go `time.Time` that
`Format("20060102_150405")` renders. -/
structure DateTime where
  year : Nat
  month : Nat
  day : Nat
  hour : Nat
  minute : Nat
  second : Nat

/-- Decimal digits of `n`, most significant first (`fuel` bounds the
recursion depth; any `fuel > n` is enough). -/
def natDigitsAux : Nat → Nat → Str
  | 0, _ => []
  | fuel + 1, n =>
    if n < 10 then [Nat.digitChar n]
    else natDigitsAux fuel (n / 10) ++ [Nat.digitChar (n % 10)]

/-- Decimal digits of `n`, most significant first. -/
def natDigits (n : Nat) : Str := natDigitsAux (n + 1) n

/-- Zero-pad on the left to width `w` (Go's fixed-width date fields). -/
def padZeros (w : Nat) (s : Str) : Str :=
  List.replicate (w - s.length) '0' ++ s

/-- Model of Go `t.Format("20060102_150405")`: 4-digit year, 2-digit
month/day, an underscore, then 2-digit hour/minute/second. -/
def fmtTimestamp (t : DateTime) : Str :=
  padZeros 4 (natDigits t.year) ++ padZeros 2 (natDigits t.month) ++
    padZeros 2 (natDigits t.day) ++
    '_' :: (padZeros 2 (natDigits t.hour) ++ padZeros 2 (natDigits t.minute) ++
      padZeros 2 (natDigits t.second))

/-- A file path, split as Go's `filepath.Dir`/`filepath.Base` split it:
(directory, basename). -/
abbrev FPath := Str × Str

/-- The file system: an association list from paths to contents, newest
entry first (permission bits are elided; no claim mentions them). -/
abbrev FS := List (FPath × Str)

def fsRead (fs : FS) (p : FPath) : Option Str :=
  (fs.find? (fun e => decide (e.1 = p))).map (·.2)

def fsWrite (fs : FS) (p : FPath) (content : Str) : FS :=
  (p, content) :: fs

/-- Failure oracle for one `WriteWithBackup` call: the wall clock it reads
and whether each of the two `os.WriteFile` calls fails (and with what
error text). -/
structure WriteEnv where
  now : DateTime
  backupWriteErr : Option Str
  targetWriteErr : Option Str

def bakSep : Str := ".bak.".data

/-- Model of `backupFile`: write `content` to
`<dir>/<base>.bak.<timestamp>`; on failure return the error and leave the
file system untouched. -/
def backupFile (fs : FS) (dir base content : Str) (env : WriteEnv) :
    Except Str (FS × FPath) :=
  let backup : FPath := (dir, base ++ bakSep ++ fmtTimestamp env.now)
  match env.backupWriteErr with
  | some e => .error e
  | none => .ok (fsWrite fs backup content, backup)

/-- Model of `WriteWithBackup`: read the target (error when absent),
compute the merged content, write the backup of the pre-write content,
then overwrite the target; each failing step returns that step's error.
The returned `FS` is the file system after the call. -/
def WriteWithBackup (fs : FS) (dir base : Str) (mappings : List Mapping)
    (env : WriteEnv) : FS × Except Str (FPath × Str) :=
  match fsRead fs (dir, base) with
  | none => (fs, .error "read error".data)
  | some orig =>
    let block := BuildManagedBlock mappings
    let newContent := ApplyManagedBlock orig block
    match backupFile fs dir base orig env with
    | .error e => (fs, .error e)
    | .ok (fs1, backupPath) =>
      match env.targetWriteErr with
      | some e => (fs1, .error e)
      | none => (fsWrite fs1 (dir, base) newContent, .ok (backupPath, newContent))

/-! ## domain package: normalization and parsing -/

/-- ASCII case folding (the only case folding observable through the
`[a-z0-9-]` validation that follows it): map code points 65–90 (`A`–`Z`)
to 97–122. -/
def asciiToLower (c : Char) : Char :=
  if 65 ≤ c.toNat ∧ c.toNat ≤ 90 then Char.ofNat (c.toNat + 32) else c

/-- The per-character check of `isDomainName`: Go's byte comparisons
`'a' ≤ ch ≤ 'z'`, `'0' ≤ ch ≤ '9'`, `ch = '-'` (code points 97–122,
48–57, 45). -/
def isLabelChar (c : Char) : Bool :=
  (97 ≤ c.toNat && c.toNat ≤ 122) || (48 ≤ c.toNat && c.toNat ≤ 57) || c.toNat == 45

/-- Model of Go `strings.Contains(s, "..")`. -/
def hasDotDot : Str → Bool
  | '.' :: '.' :: _ => true
  | _ :: rest => hasDotDot rest
  | [] => false

/-- Model of `isDomainName`: total length 1–253, no empty label (checked
both via `".."` and per label), labels of length 1–63 over `[a-z0-9-]`. -/
def isDomainName (s : Str) : Bool :=
  if s.length = 0 || 253 < s.length then false
  else if hasDotDot s then false
  else (splitOnChar '.' s).all fun label =>
    !label.isEmpty && label.length ≤ 63 && label.all isLabelChar

/-- Model of `NormalizeDomain`: trim, strip a `#` comment, strip one
trailing dot, lowercase, validate. `none` plays Go's `("", false)`. -/
def NormalizeDomain (s0 : Str) : Option Str :=
  let s1 := trimSpace s0
  if s1 = [] then none else
  let s2 := match s1.findIdx? (fun c => c == '#') with
    | some i => trimSpace (s1.take i)
    | none => s1
  let s3 := if s2.getLast? = some '.' then s2.dropLast else s2
  let s4 := (trimSpace s3).map asciiToLower
  if s4 = [] then none
  else if isDomainName s4 then some s4 else none

/-- Model of Go `strings.Fields` (fuel-based; every step consumes at
least one character, so `fuel = s.length` is enough). -/
def fieldsAux : Nat → Str → List Str
  | 0, _ => []
  | fuel + 1, s =>
    match s with
    | [] => []
    | c :: rest =>
      if isSpace c then fieldsAux fuel rest
      else (c :: rest.takeWhile (fun x => !isSpace x)) ::
        fieldsAux fuel (rest.dropWhile (fun x => !isSpace x))

/-- Model of Go `strings.Fields`: maximal runs of non-whitespace. -/
def fields (s : Str) : List Str := fieldsAux s.length s

/-- The tokens one line of `ParseDomains` input contributes: strip the
comment, trim, replace `,`/`;` by spaces, split into fields. -/
def lineTokens (line0 : Str) : List Str :=
  let line1 := match line0.findIdx? (fun c => c == '#') with
    | some i => line0.take i
    | none => line0
  let line2 := trimSpace line1
  if line2 = [] then []
  else
    let line3 := line2.map (fun c => if c = ',' then ' ' else c)
    let line4 := line3.map (fun c => if c = ';' then ' ' else c)
    fields line4

/-- The dedup loop of `ParseDomains`: `seen` is the set of already-emitted
domains (Go's `map[string]bool`). -/
def parseLoop : List Str → List Str → List Str
  | [], _ => []
  | t :: ts, seen =>
    match NormalizeDomain t with
    | some d => if d ∈ seen then parseLoop ts seen else d :: parseLoop ts (d :: seen)
    | none => parseLoop ts seen

/-- Model of `ParseDomains`. The Go code threads one `seen` map through a
loop over lines with an inner loop over tokens; that equals one loop over
the concatenated token stream. -/
def ParseDomains (text : Str) : List Str :=
  parseLoop ((splitLines (normalizeNewlines text)).flatMap lineTokens) []

/-- Keep-first deduplication, stated independently of `parseLoop`: keep
the head and delete all of its later occurrences from the tail, so each
element's first occurrence fixes its position and the output lists first
occurrences in input order. Fuel-based structural recursion: every step
consumes at least one element, so `l.length` fuel is enough. -/
def dedupFirstAux : Nat → List Str → List Str
  | 0, _ => []
  | _ + 1, [] => []
  | fuel + 1, x :: xs =>
    x :: dedupFirstAux fuel (xs.filter fun y => decide (y ≠ x))

/-- Keep-first deduplication of a list of strings. -/
def dedupFirst (l : List Str) : List Str := dedupFirstAux l.length l

/-! ## model package: addresses, candidate statistics, domain results -/

/-- Model of `netip.Addr`: the family tag plays netip's internal `z`
field (0 = invalid, 4 = IPv4, 6 = IPv6), `val` the 128-bit address value,
`zone` the IPv6 zone. `netip.Addr.Compare` orders by `z`, then value,
then zone, which `Addr.less` mirrors. -/
structure Addr where
  fam : Nat
  val : Nat
  zone : Str
deriving DecidableEq

def Addr.isValid (a : Addr) : Bool := a.fam ≠ 0

/-- Model of `netip.Addr.IsUnspecified`: equal to `0.0.0.0` or `::`. -/
def Addr.isUnspecified (a : Addr) : Bool :=
  (a.fam == 4 || a.fam == 6) && a.val == 0 && a.zone.isEmpty

def Addr.is4 (a : Addr) : Bool := a.fam == 4

def Addr.is6 (a : Addr) : Bool := a.fam == 6

/-- Bytewise string comparison, Go `<` on strings. -/
def strLess : Str → Str → Bool
  | [], [] => false
  | [], _ :: _ => true
  | _ :: _, [] => false
  | a :: as, b :: bs => if a = b then strLess as bs else decide (a < b)

/-- Model of `netip.Addr.Less`. -/
def Addr.less (a b : Addr) : Bool :=
  if a.fam ≠ b.fam then decide (a.fam < b.fam)
  else if a.val ≠ b.val then decide (a.val < b.val)
  else strLess a.zone b.zone

/-- Model of `model.CandidateStat`. Durations (`time.Duration`, an int64
nanosecond count) are `Int`. -/
structure CandidateStat where
  IP : Addr
  Successes : Nat
  Failures : Nat
  Samples : List Int
  P50 : Int
  P95 : Int
  JitterStd : Int
  LastError : Str
  ResolvedVia : Str

/-- Go's zero value of `CandidateStat` (what an error-path `DomainResult`
carries as `Best`). -/
def CandidateStat.zero : CandidateStat := ⟨⟨0, 0, []⟩, 0, 0, [], 0, 0, 0, [], []⟩

def CandidateStat.Attempts (c : CandidateStat) : Nat := c.Successes + c.Failures

/-- Model of `CandidateStat.SuccessRate`; the float64 division is
modelled exactly over `ℚ`. -/
def CandidateStat.SuccessRate (c : CandidateStat) : ℚ :=
  if c.Attempts = 0 then 0 else (c.Successes : ℚ) / (c.Attempts : ℚ)

/-- Model of `model.DomainResult`; `Err = none` plays Go's nil error. -/
structure DomainResult where
  Domain : Str
  Best : CandidateStat
  Candidates : List CandidateStat
  Err : Option Str

/-! ## engine package: configuration, ranking, statistics -/

structure Config where
  DNSServers : List Str
  Port : Int
  Timeout : Int
  Attempts : Int
  Concurrency : Int
  IPv4 : Bool
  IPv6 : Bool

/-- Model of `Config.validate`; `some e` plays a non-nil error. -/
def Config.validate (c : Config) : Option Str :=
  if c.Port ≤ 0 ∨ 65535 < c.Port then some "invalid port".data
  else if c.Timeout ≤ 0 then some "invalid timeout".data
  else if c.Attempts ≤ 0 then some "invalid attempts".data
  else if c.Concurrency ≤ 0 then some "invalid concurrency".data
  else if ¬c.IPv4 ∧ ¬c.IPv6 then some "select ipv4 and/or ipv6".data
  else none

/-- Model of the ranking comparator `better`: success rate descending,
then p95, p50, jitter ascending, then address ascending. -/
def better (a b : CandidateStat) : Bool :=
  if a.SuccessRate ≠ b.SuccessRate then decide (a.SuccessRate > b.SuccessRate)
  else if a.P95 ≠ b.P95 then decide (a.P95 < b.P95)
  else if a.P50 ≠ b.P50 then decide (a.P50 < b.P50)
  else if a.JitterStd ≠ b.JitterStd then decide (a.JitterStd < b.JitterStd)
  else Addr.less a.IP b.IP

/-- Go's `time.Duration(x)` conversion of a float: truncation toward
zero. -/
def truncToInt (x : ℚ) : Int := if 0 ≤ x then ⌊x⌋ else ⌈x⌉

/-- Model of `quantile`: sort a copy of the samples, clamp `q` to [0,1],
linearly interpolate between neighboring order statistics. The float
arithmetic is modelled exactly over `ℚ`. -/
def quantile (samples : List Int) (q : ℚ) : Int :=
  match samples with
  | [] => 0
  | _ :: _ =>
    let cp := List.insertionSort (fun a b : Int => a ≤ b) samples
    if q ≤ 0 then cp.headD 0
    else if 1 ≤ q then cp.getLastD 0
    else
      let pos := q * ((samples.length : ℚ) - 1)
      let idx := (⌊pos⌋).toNat
      let frac := pos - (idx : ℚ)
      if samples.length - 1 ≤ idx then cp.getLastD 0
      else
        let a := cp.getD idx 0
        let b := cp.getD (idx + 1) 0
        truncToInt ((a : ℚ) + ((b : ℚ) - (a : ℚ)) * frac)

/-- Model of `stddev`: population standard deviation of the samples.
`math.Sqrt` followed by the `time.Duration` truncation is modelled as the
integer square root of the floor of the exact variance. -/
def stddev (samples : List Int) : Int :=
  match samples with
  | [] => 0
  | _ :: _ =>
    let n : ℚ := samples.length
    let mean : ℚ := (samples.map (fun s => (s : ℚ))).sum / n
    let v : ℚ := (samples.map (fun s => ((s : ℚ) - mean) * ((s : ℚ) - mean))).sum / n
    Int.ofNat (Nat.sqrt (⌊v⌋).toNat)

/-! ## engine package: probing -/

/-- Oracle for one `ProbeCandidate` call: what `ctx.Err()` returns before
trial `i` (`some` = cancelled), and what `tcpPing` returns at trial `i`
(`.ok d` = success with duration `d`, `.error e` = dial failure). -/
structure ProbeEnv where
  ctxErr : Nat → Option Str
  ping : Nat → Except Str Int

/-- The trial loop of `ProbeCandidate`: `i` the trial index, the second
argument the remaining attempt budget. -/
def probeLoop (env : ProbeEnv) : Nat → Nat → CandidateStat → CandidateStat
  | _, 0, st => st
  | i, rem + 1, st =>
    match env.ctxErr i with
    | some e => { st with LastError := e }
    | none =>
      match env.ping i with
      | .error e =>
        probeLoop env (i + 1) rem
          { st with Failures := st.Failures + 1, LastError := e }
      | .ok d =>
        probeLoop env (i + 1) rem
          { st with Successes := st.Successes + 1, Samples := st.Samples ++ [d] }

/-- The derived-field step at the end of `ProbeCandidate`: p50/p95/jitter
from the samples when any trial succeeded, the per-attempt timeout as
sentinel otherwise. The Go float literals 0.50 and 0.95 are the rationals
`1/2` and `19/20`. -/
def finalizeStat (timeout : Int) (st : CandidateStat) : CandidateStat :=
  if st.Samples ≠ [] then
    { st with
      P50 := quantile st.Samples (1 / 2)
      P95 := quantile st.Samples (19 / 20)
      JitterStd := stddev st.Samples }
  else
    { st with P50 := timeout, P95 := timeout, JitterStd := timeout }

/-- Model of `ProbeCandidate`: run up to `attempts` trials, then derive
the statistic's p50/p95/jitter fields. -/
def ProbeCandidate (env : ProbeEnv) (ip : Addr) (timeout : Int) (attempts : Nat) :
    CandidateStat :=
  finalizeStat timeout (probeLoop env 0 attempts { CandidateStat.zero with IP := ip })

/-! ## engine package: resolution -/

structure Candidate where
  IP : Addr
  ResolvedVia : Str
deriving DecidableEq

/-- Oracle for one `ResolveCandidates` call: the outcome of the system
resolver lookup and of the lookup against the `i`-th configured server. -/
structure ResolveEnv where
  sys : Except Str (List Addr)
  srv : Nat → Except Str (List Addr)

/-- Model of `filterIPVersions`: keep addresses of the enabled families
(the Go in-place slice reuse has exactly this value semantics). -/
def filterIPVersions (ips : List Addr) (ipv4 ipv6 : Bool) : List Addr :=
  ips.flatMap fun ip =>
    (if ip.is4 && ipv4 then [ip] else []) ++ (if ip.is6 && ipv6 then [ip] else [])

/-- The `addIPs` closure of `ResolveCandidates`: fold new addresses into
the seen set, skipping invalid and unspecified ones; the first source to
report an address wins. -/
def addIPs (seen : List (Addr × Str)) (via : Str) (ips : List Addr) :
    List (Addr × Str) :=
  ips.foldl
    (fun acc ip =>
      if ip.isValid && !ip.isUnspecified && acc.all (fun p => !(p.1 == ip)) then
        acc ++ [(ip, via)]
      else acc)
    seen

/-- One iteration of the explicit-server loop in `ResolveCandidates`:
skip blank server names, swallow per-server lookup failures, fold
successful lookups into the seen set tagged with the trimmed server
name. -/
def serverStep (env : ResolveEnv) (ipv4 ipv6 : Bool)
    (acc : List (Addr × Str)) (q : Nat × Str) : List (Addr × Str) :=
  if trimSpace q.2 = [] then acc
  else
    match env.srv q.1 with
    | .error _ => acc
    | .ok ips => addIPs acc (trimSpace q.2) (filterIPVersions ips ipv4 ipv6)

/-- Model of `ResolveCandidates`: best-effort union over the system
resolver and every named server (per-server failures swallowed), then a
deterministic sort by address. Go iterates the `seen` map in arbitrary
order before sorting; the model keeps insertion order, which the sort
makes irrelevant. The second component models the returned error, which
the Go code always leaves nil. -/
def ResolveCandidates (env : ResolveEnv) (domain : Str) (servers : List Str)
    (ipv4 ipv6 : Bool) : List Candidate × Option Str :=
  let sysIPs := match env.sys with
    | .ok ips => ips
    | .error _ => []
  let seen0 := addIPs [] "system".data (filterIPVersions sysIPs ipv4 ipv6)
  let seen := servers.enum.foldl (serverStep env ipv4 ipv6) seen0
  let out := seen.map (fun p => Candidate.mk p.1 p.2)
  (List.insertionSort (fun a b => Addr.less a.IP b.IP = true) out, none)

/-! ## engine package: per-domain run and the scheduler -/

/-- Oracle for one `RunOneDomain` call: the resolution oracle, what
`ctx.Err()` returns before probing candidate `i`, and the probe oracle
for candidate `i`. -/
structure DomEnv where
  resolve : ResolveEnv
  ctxAt : Nat → Option Str
  probeAt : Nat → ProbeEnv

/-- The candidate loop of `RunOneDomain`: probe candidates sequentially,
aborting with `ctx.Err()` when cancellation is observed before a
candidate (in which case Go discards the statistics gathered so far). -/
def probeAll (env : DomEnv) (cfg : Config) :
    List Candidate → Nat → List CandidateStat → Except Str (List CandidateStat)
  | [], _, acc => .ok acc
  | c :: rest, i, acc =>
    match env.ctxAt i with
    | some e => .error e
    | none =>
      let st := ProbeCandidate (env.probeAt i) c.IP cfg.Timeout cfg.Attempts.toNat
      probeAll env cfg rest (i + 1) (acc ++ [{ st with ResolvedVia := c.ResolvedVia }])

/-- Model of `RunOneDomain`: resolve, probe every candidate, sort by the
ranking comparator, and designate the head as best; every failure mode
fills only the `Err` field. -/
def RunOneDomain (env : DomEnv) (domain : Str) (cfg : Config) : DomainResult :=
  match ResolveCandidates env.resolve domain cfg.DNSServers cfg.IPv4 cfg.IPv6 with
  | (_, some e) => ⟨domain, CandidateStat.zero, [], some e⟩
  | (candidates, none) =>
    if candidates = [] then
      ⟨domain, CandidateStat.zero, [], some "no candidate ip".data⟩
    else
      match probeAll env cfg candidates 0 [] with
      | .error e => ⟨domain, CandidateStat.zero, [], some e⟩
      | .ok stats =>
        let sorted := List.insertionSort (fun a b => better a b = true) stats
        ⟨domain, sorted.headD CandidateStat.zero, sorted, none⟩

/-- Oracle for one `Run` call: what `ctx.Done()` yields at the `i`-th
send into the work channel (`some e` = the select takes `ctx.Done()` and
`ctx.Err()` is `e`), and each dispatched domain's environment. -/
structure RunEnv where
  cancelAt : Nat → Option Str
  domEnv : Nat → DomEnv

/-- Linearization of `Run`'s dispatch: the work channel is unbuffered, so
a domain is handed to exactly one worker exactly when its send completes,
and that worker then emits exactly one `DomainResult` for it. The first
component collects those results in dispatch order; the second is the
error `Run` returns (`some` = `ctx.Err()` interrupted dispatch). -/
def dispatchLoop (env : RunEnv) (cfg : Config) :
    List Str → Nat → List DomainResult × Option Str
  | [], _ => ([], none)
  | d :: rest, i =>
    match env.cancelAt i with
    | some e => ([], some e)
    | none =>
      let res := RunOneDomain (env.domEnv i) d cfg
      let (more, err) := dispatchLoop env cfg rest (i + 1)
      (res :: more, err)

/-- Model of `Run`: validate the configuration, reject an empty domain
list, then dispatch. -/
def Run (env : RunEnv) (domains : List Str) (cfg : Config) :
    Except Str (List DomainResult × Option Str) :=
  match cfg.validate with
  | some e => .error e
  | none =>
    if domains = [] then .error "empty domain list".data
    else .ok (dispatchLoop env cfg domains 0)

/-- The results a run emitted (empty for a run rejected before start). -/
def runResults : Except Str (List DomainResult × Option Str) → List DomainResult
  | .ok (rs, _) => rs
  | .error _ => []

/-- The completion error of a run (`none` also for a rejected run). -/
def runErr : Except Str (List DomainResult × Option Str) → Option Str
  | .ok (_, e) => e
  | .error _ => none

/-- Number of sends the dispatch loop completes starting at send index
`i` with `n` domains left: it stops at the first send where the
cancellation oracle fires. -/
def firstCancelFrom (env : RunEnv) : Nat → Nat → Nat
  | _, 0 => 0
  | i, n + 1 =>
    match env.cancelAt i with
    | some _ => 0
    | none => firstCancelFrom env (i + 1) n + 1

/-- Index of the first send at which cancellation fires, or `n` if none
of the first `n` sends observes it. -/
def firstCancel (env : RunEnv) (n : Nat) : Nat := firstCancelFrom env 0 n

/-! ## Lemmas: file-system primitives and timestamp digits -/

theorem fsRead_fsWrite_self (fs : FS) (p : FPath) (c : Str) :
    fsRead (fsWrite fs p c) p = some c := by
  simp [fsRead, fsWrite]

theorem fsRead_fsWrite_other (fs : FS) (p q : FPath) (c : Str) (h : q ≠ p) :
    fsRead (fsWrite fs p c) q = fsRead fs q := by
  simp [fsRead, fsWrite, List.find?_cons_of_neg, Ne.symm h]

theorem digitChar_isDigit (n : Nat) (h : n < 10) : (Nat.digitChar n).isDigit = true := by
  interval_cases n <;> decide

theorem natDigitsAux_all_digit :
    ∀ fuel n : Nat, n < fuel → (natDigitsAux fuel n).all Char.isDigit = true := by
  intro fuel
  induction fuel with
  | zero => intro n h; omega
  | succ f ih =>
    intro n h
    unfold natDigitsAux
    split
    · next h10 => simp [digitChar_isDigit _ h10]
    · next h10 =>
      have h1 : n / 10 < f := by omega
      simp [List.all_append, ih _ h1, digitChar_isDigit (n % 10) (Nat.mod_lt _ (by omega))]

theorem natDigitsAux_length_le :
    ∀ fuel k n : Nat, n < fuel → n < 10 ^ k → 1 ≤ k →
      (natDigitsAux fuel n).length ≤ k := by
  intro fuel
  induction fuel with
  | zero => intro k n h; omega
  | succ f ih =>
    intro k n hf hk hk1
    unfold natDigitsAux
    split
    · next h10 => simpa using hk1
    · next h10 =>
      obtain ⟨k', rfl⟩ : ∃ k', k = k' + 1 := ⟨k - 1, by omega⟩
      have hk2 : 1 ≤ k' := by
        by_contra hc
        have : k' = 0 := by omega
        subst this
        simp at hk
        omega
      have hdiv : n / 10 < 10 ^ k' := by
        rw [Nat.div_lt_iff_lt_mul (by omega)]
        calc n < 10 ^ (k' + 1) := hk
        _ = 10 ^ k' * 10 := by ring
      have hdivf : n / 10 < f := by omega
      have := ih k' (n / 10) hdivf hdiv hk2
      simp only [List.length_append, List.length_cons, List.length_nil]
      omega

theorem padZeros_spec (k : Nat) (s : Str) (hlen : s.length ≤ k)
    (hdig : s.all Char.isDigit = true) :
    (padZeros k s).length = k ∧ (padZeros k s).all Char.isDigit = true := by
  constructor
  · simp only [padZeros, List.length_append, List.length_replicate]
    omega
  · simp only [padZeros, List.all_append, hdig, Bool.and_true]
    simp only [List.all_eq_true]
    intro c hc
    rw [List.eq_of_mem_replicate hc]
    decide

theorem natDigits_spec (k n : Nat) (hn : n < 10 ^ k) (hk : 1 ≤ k) :
    (padZeros k (natDigits n)).length = k ∧
      (padZeros k (natDigits n)).all Char.isDigit = true :=
  padZeros_spec _ _ (natDigitsAux_length_le _ _ _ (Nat.lt_succ_self n) hn hk)
    (natDigitsAux_all_digit _ _ (Nat.lt_succ_self n))

theorem fmtTimestamp_eq (t : DateTime) :
    fmtTimestamp t =
      (padZeros 4 (natDigits t.year) ++ padZeros 2 (natDigits t.month) ++
        padZeros 2 (natDigits t.day)) ++
      '_' :: (padZeros 2 (natDigits t.hour) ++ padZeros 2 (natDigits t.minute) ++
        padZeros 2 (natDigits t.second)) := by
  simp [fmtTimestamp, List.append_assoc]

/-- Claim C9 (amended): every backup file is placed in the same directory
as the target, its content equals the pre-write content exactly, and its
name is `<original-name>.bak.<YYYYMMDD_HHMMSS>` — an 8-digit date, an
underscore, and a 6-digit time (not 14 contiguous digits). -/
theorem backupFile_spec (fs : FS) (dir base content : Str) (env : WriteEnv)
    (hok : env.backupWriteErr = none) (hy : env.now.year < 10000)
    (hmo : env.now.month < 100) (hd : env.now.day < 100) (hh : env.now.hour < 100)
    (hmi : env.now.minute < 100) (hs : env.now.second < 100) :
    ∃ d8 d6 : Str, d8.length = 8 ∧ d8.all Char.isDigit = true ∧
      d6.length = 6 ∧ d6.all Char.isDigit = true ∧
      backupFile fs dir base content env =
        .ok (fsWrite fs (dir, base ++ bakSep ++ (d8 ++ '_' :: d6)) content,
          (dir, base ++ bakSep ++ (d8 ++ '_' :: d6))) ∧
      fsRead (fsWrite fs (dir, base ++ bakSep ++ (d8 ++ '_' :: d6)) content)
        (dir, base ++ bakSep ++ (d8 ++ '_' :: d6)) = some content := by
  have hy4 : env.now.year < 10 ^ 4 := by norm_num; omega
  have hmo2 : env.now.month < 10 ^ 2 := by norm_num; omega
  have hd2 : env.now.day < 10 ^ 2 := by norm_num; omega
  have hh2 : env.now.hour < 10 ^ 2 := by norm_num; omega
  have hmi2 : env.now.minute < 10 ^ 2 := by norm_num; omega
  have hs2 : env.now.second < 10 ^ 2 := by norm_num; omega
  obtain ⟨hyl, hyd⟩ := natDigits_spec 4 env.now.year hy4 (by omega)
  obtain ⟨hmol, hmod⟩ := natDigits_spec 2 env.now.month hmo2 (by omega)
  obtain ⟨hdl, hdd⟩ := natDigits_spec 2 env.now.day hd2 (by omega)
  obtain ⟨hhl, hhd⟩ := natDigits_spec 2 env.now.hour hh2 (by omega)
  obtain ⟨hmil, hmid⟩ := natDigits_spec 2 env.now.minute hmi2 (by omega)
  obtain ⟨hsl, hsd⟩ := natDigits_spec 2 env.now.second hs2 (by omega)
  refine ⟨padZeros 4 (natDigits env.now.year) ++ padZeros 2 (natDigits env.now.month) ++
      padZeros 2 (natDigits env.now.day),
    padZeros 2 (natDigits env.now.hour) ++ padZeros 2 (natDigits env.now.minute) ++
      padZeros 2 (natDigits env.now.second), ?_, ?_, ?_, ?_, ?_, ?_⟩
  · simp only [List.length_append]; omega
  · simp [List.all_append, hyd, hmod, hdd]
  · simp only [List.length_append]; omega
  · simp [List.all_append, hhd, hmid, hsd]
  · simp [backupFile, hok, fmtTimestamp_eq]
  · exact fsRead_fsWrite_self _ _ _

/-- Claim C9 counterexample: at the concrete instant 2026-10-11 19:03:05
the backup name suffix after `.bak.` is `20261011_190305`, which is not a
14-digit string (it has 15 characters, one of them an underscore). -/
theorem backupFile_timestamp_counterexample :
    ¬∃ fs1 ts, backupFile [] "/etc".data "hosts".data "x".data
        ⟨⟨2026, 10, 11, 19, 3, 5⟩, none, none⟩ =
          .ok (fs1, ("/etc".data, "hosts".data ++ bakSep ++ ts)) ∧
      ts.length = 14 ∧ ts.all Char.isDigit = true := by
  rintro ⟨fs1, ts, heq, hlen, -⟩
  simp only [backupFile, fsWrite, Except.ok.injEq, Prod.mk.injEq] at heq
  have hname : "hosts".data ++ bakSep ++ fmtTimestamp ⟨2026, 10, 11, 19, 3, 5⟩ =
      "hosts".data ++ bakSep ++ ts := heq.2.2
  have hts : ts = fmtTimestamp ⟨2026, 10, 11, 19, 3, 5⟩ := by
    have := congrArg List.length hname
    have hlen2 := hlen
    simp only [List.length_append] at this
    have : (fmtTimestamp ⟨2026, 10, 11, 19, 3, 5⟩).length = ts.length := by omega
    rw [List.append_assoc, List.append_assoc] at hname
    have h1 := List.append_cancel_left hname
    have h2 := List.append_cancel_left h1
    exact h2.symm
  rw [hts] at hlen
  have : (fmtTimestamp ⟨2026, 10, 11, 19, 3, 5⟩).length = 15 := by decide
  omega

/-- Claim C2: `WriteWithBackup` writes a backup of the pre-write content
before overwriting the target; a failed backup write aborts the operation
with the backup's error and leaves the target (indeed the whole file
system) unchanged; a failed target write still leaves the target's old
content readable only through the backup it already wrote; on success the
backup holds the pre-write content and the target the merged content. -/
theorem writeWithBackup_spec (fs : FS) (dir base : Str) (ms : List Mapping)
    (env : WriteEnv) (orig : Str) (hread : fsRead fs (dir, base) = some orig) :
    (∀ e, env.backupWriteErr = some e →
      WriteWithBackup fs dir base ms env = (fs, .error e)) ∧
    (env.backupWriteErr = none → env.targetWriteErr = none →
      WriteWithBackup fs dir base ms env =
        (fsWrite (fsWrite fs (dir, base ++ bakSep ++ fmtTimestamp env.now) orig)
          (dir, base) (ApplyManagedBlock orig (BuildManagedBlock ms)),
         .ok ((dir, base ++ bakSep ++ fmtTimestamp env.now),
           ApplyManagedBlock orig (BuildManagedBlock ms))) ∧
      fsRead (WriteWithBackup fs dir base ms env).1
          (dir, base ++ bakSep ++ fmtTimestamp env.now) = some orig ∧
      fsRead (WriteWithBackup fs dir base ms env).1 (dir, base) =
        some (ApplyManagedBlock orig (BuildManagedBlock ms))) := by
  have hne : (dir, base) ≠ (dir, base ++ bakSep ++ fmtTimestamp env.now) := by
    intro hc
    have := congrArg (fun p : FPath => p.2.length) hc
    simp only [List.length_append] at this
    have : (bakSep).length = 0 := by omega
    simp [bakSep] at this
  constructor
  · intro e he
    simp [WriteWithBackup, hread, backupFile, he]
  · intro hb ht
    have heq : WriteWithBackup fs dir base ms env =
        (fsWrite (fsWrite fs (dir, base ++ bakSep ++ fmtTimestamp env.now) orig)
          (dir, base) (ApplyManagedBlock orig (BuildManagedBlock ms)),
         .ok ((dir, base ++ bakSep ++ fmtTimestamp env.now),
           ApplyManagedBlock orig (BuildManagedBlock ms))) := by
      simp [WriteWithBackup, hread, backupFile, hb, ht]
    refine ⟨heq, ?_, ?_⟩
    · rw [heq]
      rw [fsRead_fsWrite_other _ _ _ _ (Ne.symm hne)]
      exact fsRead_fsWrite_self _ _ _
    · rw [heq]
      exact fsRead_fsWrite_self _ _ _

/-! ## Lemmas: the probe loop -/

/-- Number of trials the probe loop actually starts when running from
trial index `i` with `rem` attempts remaining: it stops at the first
trial where the cancellation oracle fires. -/
def attemptsFrom (env : ProbeEnv) : Nat → Nat → Nat
  | _, 0 => 0
  | i, rem + 1 =>
    match env.ctxErr i with
    | some _ => 0
    | none => attemptsFrom env (i + 1) rem + 1

theorem attemptsFrom_le (env : ProbeEnv) :
    ∀ rem i, attemptsFrom env i rem ≤ rem := by
  intro rem
  induction rem with
  | zero => intro i; simp [attemptsFrom]
  | succ r ih =>
    intro i
    unfold attemptsFrom
    cases env.ctxErr i with
    | some e => simp
    | none => simpa using ih (i + 1)

theorem probeLoop_IP (env : ProbeEnv) :
    ∀ rem i st, (probeLoop env i rem st).IP = st.IP := by
  intro rem
  induction rem with
  | zero => intro i st; rfl
  | succ r ih =>
    intro i st
    unfold probeLoop
    cases env.ctxErr i with
    | some e => rfl
    | none =>
      cases env.ping i with
      | error e => exact ih _ _
      | ok d => exact ih _ _

theorem probeLoop_counts (env : ProbeEnv) :
    ∀ rem i st,
      (probeLoop env i rem st).Successes + (probeLoop env i rem st).Failures =
        st.Successes + st.Failures + attemptsFrom env i rem := by
  intro rem
  induction rem with
  | zero => intro i st; simp [probeLoop, attemptsFrom]
  | succ r ih =>
    intro i st
    unfold probeLoop attemptsFrom
    cases env.ctxErr i with
    | some e => simp
    | none =>
      cases env.ping i with
      | error e => simp only; rw [ih]; simp; omega
      | ok d => simp only; rw [ih]; simp; omega

theorem probeLoop_samples_len (env : ProbeEnv) :
    ∀ rem i st,
      (probeLoop env i rem st).Successes + st.Samples.length =
        (probeLoop env i rem st).Samples.length + st.Successes := by
  intro rem
  induction rem with
  | zero => intro i st; simp [probeLoop]; omega
  | succ r ih =>
    intro i st
    unfold probeLoop
    cases env.ctxErr i with
    | some e => simp; omega
    | none =>
      cases env.ping i with
      | error e => simpa using ih (i + 1) _
      | ok d =>
        have := ih (i + 1)
          { st with Successes := st.Successes + 1, Samples := st.Samples ++ [d] }
        simp only at this ⊢
        simp only [List.length_append, List.length_cons, List.length_nil] at this
        omega

theorem probeLoop_cancel (env : ProbeEnv) :
    ∀ rem i st, attemptsFrom env i rem < rem →
      ∃ e, env.ctxErr (i + attemptsFrom env i rem) = some e ∧
        (probeLoop env i rem st).LastError = e := by
  intro rem
  induction rem with
  | zero => intro i st h; omega
  | succ r ih =>
    intro i st h
    unfold probeLoop
    unfold attemptsFrom at h ⊢
    cases henv : env.ctxErr i with
    | some e =>
      refine ⟨e, ?_, ?_⟩
      · simpa using henv
      · rfl
    | none =>
      rw [henv] at h
      simp only at h ⊢
      have hlt : attemptsFrom env (i + 1) r < r := by omega
      cases env.ping i with
      | error e =>
        obtain ⟨e', he1, he2⟩ := ih (i + 1) _ hlt
        exact ⟨e', by rw [← he1]; congr 1; omega, he2⟩
      | ok d =>
        obtain ⟨e', he1, he2⟩ := ih (i + 1) _ hlt
        exact ⟨e', by rw [← he1]; congr 1; omega, he2⟩

theorem finalizeStat_Samples (timeout : Int) (st : CandidateStat) :
    (finalizeStat timeout st).Samples = st.Samples := by
  unfold finalizeStat
  split <;> rfl

theorem finalizeStat_Successes (timeout : Int) (st : CandidateStat) :
    (finalizeStat timeout st).Successes = st.Successes := by
  unfold finalizeStat
  split <;> rfl

theorem finalizeStat_Failures (timeout : Int) (st : CandidateStat) :
    (finalizeStat timeout st).Failures = st.Failures := by
  unfold finalizeStat
  split <;> rfl

theorem finalizeStat_LastError (timeout : Int) (st : CandidateStat) :
    (finalizeStat timeout st).LastError = st.LastError := by
  unfold finalizeStat
  split <;> rfl

theorem ProbeCandidate_Samples (env : ProbeEnv) (ip : Addr) (timeout : Int)
    (attempts : Nat) :
    (ProbeCandidate env ip timeout attempts).Samples =
      (probeLoop env 0 attempts { CandidateStat.zero with IP := ip }).Samples :=
  finalizeStat_Samples _ _

theorem ProbeCandidate_Successes (env : ProbeEnv) (ip : Addr) (timeout : Int)
    (attempts : Nat) :
    (ProbeCandidate env ip timeout attempts).Successes =
      (probeLoop env 0 attempts { CandidateStat.zero with IP := ip }).Successes :=
  finalizeStat_Successes _ _

theorem ProbeCandidate_Failures (env : ProbeEnv) (ip : Addr) (timeout : Int)
    (attempts : Nat) :
    (ProbeCandidate env ip timeout attempts).Failures =
      (probeLoop env 0 attempts { CandidateStat.zero with IP := ip }).Failures :=
  finalizeStat_Failures _ _

theorem ProbeCandidate_LastError (env : ProbeEnv) (ip : Addr) (timeout : Int)
    (attempts : Nat) :
    (ProbeCandidate env ip timeout attempts).LastError =
      (probeLoop env 0 attempts { CandidateStat.zero with IP := ip }).LastError :=
  finalizeStat_LastError _ _

/-- Claim C8: successes + failures equals the number of probe attempts
actually made, which is at most the budget; it is smaller only when the
cancellation oracle fired at the first unattempted trial, in which case
the last-error field carries that cancellation error; the success rate is
successes over attempts made, and 0 when no attempt was made. -/
theorem probeCandidate_attempt_accounting (env : ProbeEnv) (ip : Addr)
    (timeout : Int) (attempts : Nat) :
    (ProbeCandidate env ip timeout attempts).Successes +
        (ProbeCandidate env ip timeout attempts).Failures =
      attemptsFrom env 0 attempts ∧
    attemptsFrom env 0 attempts ≤ attempts ∧
    (attemptsFrom env 0 attempts < attempts →
      ∃ e, env.ctxErr (attemptsFrom env 0 attempts) = some e ∧
        (ProbeCandidate env ip timeout attempts).LastError = e) ∧
    (ProbeCandidate env ip timeout attempts).SuccessRate =
      (if (ProbeCandidate env ip timeout attempts).Successes +
          (ProbeCandidate env ip timeout attempts).Failures = 0 then 0
       else ((ProbeCandidate env ip timeout attempts).Successes : ℚ) /
         (((ProbeCandidate env ip timeout attempts).Successes +
           (ProbeCandidate env ip timeout attempts).Failures : Nat) : ℚ)) := by
  refine ⟨?_, attemptsFrom_le env attempts 0, ?_, rfl⟩
  · rw [ProbeCandidate_Successes, ProbeCandidate_Failures]
    simpa [CandidateStat.zero] using
      probeLoop_counts env attempts 0 { CandidateStat.zero with IP := ip }
  · intro hlt
    obtain ⟨e, he1, he2⟩ :=
      probeLoop_cancel env attempts 0 { CandidateStat.zero with IP := ip } hlt
    refine ⟨e, by simpa using he1, ?_⟩
    rw [ProbeCandidate_LastError]
    exact he2

theorem successRate_eq_zero (st : CandidateStat) (h : st.Successes = 0) :
    st.SuccessRate = 0 := by
  unfold CandidateStat.SuccessRate
  split
  · rfl
  · simp [h]

theorem successRate_pos (st : CandidateStat) (h : 1 ≤ st.Successes) :
    0 < st.SuccessRate := by
  unfold CandidateStat.SuccessRate
  rw [if_neg (by unfold CandidateStat.Attempts; omega)]
  apply div_pos
  · exact_mod_cast h
  · have : 0 < st.Attempts := by unfold CandidateStat.Attempts; omega
    exact_mod_cast this

theorem better_of_rate_gt (a b : CandidateStat)
    (h : b.SuccessRate < a.SuccessRate) : better a b = true := by
  unfold better
  rw [if_pos (ne_of_gt h)]
  exact decide_eq_true h

/-- Claim C5: a probed candidate with zero successful samples gets the
per-attempt timeout as p50, p95 and jitter, and ranks behind every
candidate with at least one successful trial (whose attempt count is then
positive). -/
theorem probe_zero_samples_sentinel (env1 env2 : ProbeEnv) (ip1 ip2 : Addr)
    (timeout : Int) (attempts : Nat)
    (h1 : (ProbeCandidate env1 ip1 timeout attempts).Samples = [])
    (h2 : 1 ≤ (ProbeCandidate env2 ip2 timeout attempts).Successes) :
    (ProbeCandidate env1 ip1 timeout attempts).P50 = timeout ∧
    (ProbeCandidate env1 ip1 timeout attempts).P95 = timeout ∧
    (ProbeCandidate env1 ip1 timeout attempts).JitterStd = timeout ∧
    0 < (ProbeCandidate env2 ip2 timeout attempts).Attempts ∧
    better (ProbeCandidate env2 ip2 timeout attempts)
      (ProbeCandidate env1 ip1 timeout attempts) = true := by
  have hsl : (probeLoop env1 0 attempts { CandidateStat.zero with IP := ip1 }).Samples = [] := by
    rw [← ProbeCandidate_Samples env1 ip1 timeout attempts]
    exact h1
  have hPC : ProbeCandidate env1 ip1 timeout attempts =
      { probeLoop env1 0 attempts { CandidateStat.zero with IP := ip1 } with
        P50 := timeout, P95 := timeout, JitterStd := timeout } := by
    unfold ProbeCandidate finalizeStat
    rw [if_neg (by simp [hsl])]
  have hS0 : (ProbeCandidate env1 ip1 timeout attempts).Successes = 0 := by
    rw [ProbeCandidate_Successes]
    have := probeLoop_samples_len env1 attempts 0 { CandidateStat.zero with IP := ip1 }
    rw [hsl] at this
    simpa [CandidateStat.zero] using this
  refine ⟨by rw [hPC], by rw [hPC], by rw [hPC], ?_, ?_⟩
  · unfold CandidateStat.Attempts
    omega
  · apply better_of_rate_gt
    rw [successRate_eq_zero _ hS0]
    exact successRate_pos _ h2

/-! ## Lemmas: resolution -/

theorem mem_addIPs :
    ∀ (ips : List Addr) (seen : List (Addr × Str)) (via : Str) (p : Addr × Str),
      p ∈ addIPs seen via ips →
      p ∈ seen ∨ (p.1.isValid = true ∧ p.1.isUnspecified = false) := by
  intro ips
  induction ips with
  | nil => intro seen via p hp; exact Or.inl hp
  | cons ip t ih =>
    intro seen via p hp
    simp only [addIPs, List.foldl_cons] at hp
    rcases ih _ via p hp with hmem | hgood
    · by_cases hc : (ip.isValid && !ip.isUnspecified &&
        seen.all fun q => !(q.1 == ip)) = true
      · rw [if_pos hc] at hmem
        rcases List.mem_append.mp hmem with hseen | hnew
        · exact Or.inl hseen
        · right
          have hp_eq : p = (ip, via) := by simpa using hnew
          subst hp_eq
          simp only [Bool.and_eq_true, Bool.not_eq_true'] at hc
          exact ⟨hc.1.1, hc.1.2⟩
      · rw [if_neg hc] at hmem
        exact Or.inl hmem
    · exact Or.inr hgood

theorem mem_serverStep (env : ResolveEnv) (ipv4 ipv6 : Bool)
    (acc : List (Addr × Str)) (q : Nat × Str) (p : Addr × Str)
    (hp : p ∈ serverStep env ipv4 ipv6 acc q) :
    p ∈ acc ∨ (p.1.isValid = true ∧ p.1.isUnspecified = false) := by
  unfold serverStep at hp
  split at hp
  · exact Or.inl hp
  · split at hp
    · exact Or.inl hp
    · rcases mem_addIPs _ _ _ _ hp with h | h
      · exact Or.inl h
      · exact Or.inr h

theorem mem_serverFold (env : ResolveEnv) (ipv4 ipv6 : Bool) :
    ∀ (l : List (Nat × Str)) (acc : List (Addr × Str)) (p : Addr × Str),
      p ∈ l.foldl (serverStep env ipv4 ipv6) acc →
      p ∈ acc ∨ (p.1.isValid = true ∧ p.1.isUnspecified = false) := by
  intro l
  induction l with
  | nil => intro acc p hp; exact Or.inl hp
  | cons q t ih =>
    intro acc p hp
    simp only [List.foldl_cons] at hp
    rcases ih _ p hp with hmem | hgood
    · exact mem_serverStep _ _ _ _ _ _ hmem
    · exact Or.inr hgood

/-- Claim C10: every candidate coming out of `ResolveCandidates` has a
valid, non-unspecified address; the returned error is always nil, even
with zero candidates; the "no candidate ip" failure is produced by
`RunOneDomain` when the candidate list is empty. -/
theorem resolveCandidates_spec (env : ResolveEnv) (domain : Str)
    (servers : List Str) (ipv4 ipv6 : Bool) :
    (ResolveCandidates env domain servers ipv4 ipv6).2 = none ∧
    (∀ c ∈ (ResolveCandidates env domain servers ipv4 ipv6).1,
      c.IP.isValid = true ∧ c.IP.isUnspecified = false) ∧
    (∀ (denv : DomEnv) (cfg : Config),
      (ResolveCandidates denv.resolve domain cfg.DNSServers cfg.IPv4 cfg.IPv6).1 = [] →
      (RunOneDomain denv domain cfg).Err = some "no candidate ip".data) := by
  refine ⟨rfl, ?_, ?_⟩
  · intro c hc
    unfold ResolveCandidates at hc
    simp only at hc
    have hmem := (List.perm_insertionSort
      (fun a b : Candidate => Addr.less a.IP b.IP = true) _).mem_iff.mp hc
    rcases List.mem_map.mp hmem with ⟨p, hp, rfl⟩
    rcases mem_serverFold _ _ _ _ _ _ hp with h0 | hgood
    · rcases mem_addIPs _ _ _ _ h0 with h | h
      · simp at h
      · exact h
    · exact hgood
  · intro denv cfg hempty
    have hp : ResolveCandidates denv.resolve domain cfg.DNSServers cfg.IPv4 cfg.IPv6 =
        ([], none) := by
      have h2 : (ResolveCandidates denv.resolve domain cfg.DNSServers cfg.IPv4
          cfg.IPv6).2 = none := rfl
      exact Prod.ext hempty h2
    unfold RunOneDomain
    rw [hp]
    simp

/-! ## Lemmas: the scheduler dispatch loop -/

theorem firstCancelFrom_succ_some (env : RunEnv) (i n : Nat) (e : Str)
    (hc : env.cancelAt i = some e) : firstCancelFrom env i (n + 1) = 0 := by
  simp only [firstCancelFrom, hc]

theorem firstCancelFrom_succ_none (env : RunEnv) (i n : Nat)
    (hc : env.cancelAt i = none) :
    firstCancelFrom env i (n + 1) = firstCancelFrom env (i + 1) n + 1 := by
  simp only [firstCancelFrom, hc]

theorem firstCancelFrom_le (env : RunEnv) :
    ∀ n i, firstCancelFrom env i n ≤ n := by
  intro n
  induction n with
  | zero => intro i; simp [firstCancelFrom]
  | succ m ih =>
    intro i
    cases hc : env.cancelAt i with
    | some e => rw [firstCancelFrom_succ_some env i m e hc]; omega
    | none =>
      rw [firstCancelFrom_succ_none env i m hc]
      have := ih (i + 1)
      omega

theorem firstCancelFrom_lt (env : RunEnv) :
    ∀ n i, firstCancelFrom env i n < n →
      (env.cancelAt (i + firstCancelFrom env i n)).isSome = true := by
  intro n
  induction n with
  | zero => intro i h; omega
  | succ m ih =>
    intro i h
    cases hc : env.cancelAt i with
    | some e =>
      rw [firstCancelFrom_succ_some env i m e hc]
      simp [hc]
    | none =>
      rw [firstCancelFrom_succ_none env i m hc] at h ⊢
      have hlt : firstCancelFrom env (i + 1) m < m := by omega
      have harg : i + (firstCancelFrom env (i + 1) m + 1) =
          (i + 1) + firstCancelFrom env (i + 1) m := by omega
      rw [harg]
      exact ih (i + 1) hlt

theorem dispatchLoop_eq (env : RunEnv) (cfg : Config) :
    ∀ (ds : List Str) (i : Nat),
      dispatchLoop env cfg ds i =
        (((ds.take (firstCancelFrom env i ds.length)).enumFrom i).map
           (fun p => RunOneDomain (env.domEnv p.1) p.2 cfg),
         if firstCancelFrom env i ds.length < ds.length then
           env.cancelAt (i + firstCancelFrom env i ds.length)
         else none) := by
  intro ds
  induction ds with
  | nil => intro i; simp [dispatchLoop, firstCancelFrom]
  | cons d t ih =>
    intro i
    simp only [List.length_cons]
    cases hc : env.cancelAt i with
    | some e =>
      rw [firstCancelFrom_succ_some env i t.length e hc]
      unfold dispatchLoop
      rw [hc]
      simp [hc]
    | none =>
      rw [firstCancelFrom_succ_none env i t.length hc]
      unfold dispatchLoop
      rw [hc, ih (i + 1)]
      simp only [List.take_succ_cons, List.enumFrom_cons, List.map_cons]
      congr 1
      by_cases hlt : firstCancelFrom env (i + 1) t.length < t.length
      · rw [if_pos hlt, if_pos (by omega)]
        congr 1
        omega
      · rw [if_neg hlt, if_neg (by omega)]

/-- Claim C1 (amended): with a valid configuration and a non-empty domain
sequence, every domain handed to a worker before cancellation yields
exactly one DomainResult — the i-th emitted result is the result for the
i-th submitted domain — but domains not yet handed to a worker when
cancellation fires are dropped without any DomainResult; run completion is
signalled exactly once, carrying the cancellation error exactly when
cancellation interrupted dispatch, and no error otherwise. -/
theorem run_dispatch_spec (env : RunEnv) (domains : List Str) (cfg : Config)
    (hv : cfg.validate = none) (hne : domains ≠ []) :
    Run env domains cfg =
      .ok (((domains.take (firstCancel env domains.length)).enumFrom 0).map
            (fun p => RunOneDomain (env.domEnv p.1) p.2 cfg),
        if firstCancel env domains.length < domains.length then
          env.cancelAt (firstCancel env domains.length)
        else none) ∧
    (runResults (Run env domains cfg)).length = firstCancel env domains.length ∧
    firstCancel env domains.length ≤ domains.length ∧
    (firstCancel env domains.length < domains.length →
      (env.cancelAt (firstCancel env domains.length)).isSome = true) := by
  have hrun : Run env domains cfg = .ok (dispatchLoop env cfg domains 0) := by
    unfold Run
    rw [hv]
    simp [hne]
  have hd := dispatchLoop_eq env cfg domains 0
  have hfc : firstCancel env domains.length = firstCancelFrom env 0 domains.length := rfl
  refine ⟨?_, ?_, firstCancelFrom_le env domains.length 0, ?_⟩
  · rw [hrun, hd, hfc]
    simp
  · rw [hrun, hd]
    simp only [runResults, List.length_map, List.enumFrom_length, List.length_take, hfc]
    exact Nat.min_eq_left (firstCancelFrom_le env domains.length 0)
  · intro hlt
    rw [hfc]
    simpa using firstCancelFrom_lt env domains.length 0 (by rw [hfc] at hlt; exact hlt)

/-- Concrete run environment in which cancellation fires right after the
first send: the system resolver and every dial fail, so results carry
errors, which is irrelevant to counting them. -/
def ceC1Env : RunEnv where
  cancelAt := fun i => if i = 0 then none else some "context canceled".data
  domEnv := fun _ =>
    { resolve := { sys := .error "lookup failed".data,
                   srv := fun _ => .error "lookup failed".data }
      ctxAt := fun _ => none
      probeAt := fun _ => { ctxErr := fun _ => none, ping := fun _ => .error "dial".data } }

def ceC1Cfg : Config := ⟨[], 443, 1000, 2, 4, true, false⟩

/-- Claim C1 counterexample: two domains are submitted with a valid
configuration, cancellation fires before the second domain is handed to a
worker, and the run emits only one DomainResult — the undispatched domain
yields none, contradicting "every submitted domain yields exactly one
DomainResult ... including domains not yet handed to a worker when
cancellation fires". -/
theorem run_counterexample_C1 :
    ceC1Cfg.validate = none ∧
    (runResults (Run ceC1Env ["a".data, "b".data] ceC1Cfg)).length = 1 ∧
    runErr (Run ceC1Env ["a".data, "b".data] ceC1Cfg) = some "context canceled".data ∧
    ¬((runResults (Run ceC1Env ["a".data, "b".data] ceC1Cfg)).length = 2) := by
  decide

/-! ## Lemmas: the ranking comparator -/

theorem strLess_trans :
    ∀ a b c : Str, strLess a b = true → strLess b c = true → strLess a c = true := by
  intro a
  induction a with
  | nil =>
    intro b c hab hbc
    cases b with
    | nil => simp [strLess] at hab
    | cons y ys =>
      cases c with
      | nil => simp [strLess] at hbc
      | cons z zs => simp [strLess]
  | cons x xs ih =>
    intro b c hab hbc
    cases b with
    | nil => simp [strLess] at hab
    | cons y ys =>
      cases c with
      | nil => simp [strLess] at hbc
      | cons z zs =>
        simp only [strLess] at hab hbc ⊢
        by_cases hxy : x = y
        · subst hxy
          rw [if_pos rfl] at hab
          by_cases hyz : x = z
          · subst hyz
            rw [if_pos rfl] at hbc ⊢
            exact ih _ _ hab hbc
          · rw [if_neg hyz] at hbc ⊢
            exact hbc
        · rw [if_neg hxy] at hab
          have hxy' : x < y := of_decide_eq_true hab
          by_cases hyz : y = z
          · subst hyz
            rw [if_neg hxy]
            exact hab
          · rw [if_neg hyz] at hbc
            have hyz' : y < z := of_decide_eq_true hbc
            have hxz : x < z := lt_trans hxy' hyz'
            rw [if_neg (ne_of_lt hxz)]
            exact decide_eq_true hxz

theorem strLess_total :
    ∀ a b : Str, a ≠ b → strLess a b = true ∨ strLess b a = true := by
  intro a
  induction a with
  | nil =>
    intro b hne
    cases b with
    | nil => exact absurd rfl hne
    | cons y ys => left; simp [strLess]
  | cons x xs ih =>
    intro b hne
    cases b with
    | nil => right; simp [strLess]
    | cons y ys =>
      by_cases hxy : x = y
      · subst hxy
        have hne' : xs ≠ ys := fun h => hne (by rw [h])
        rcases ih ys hne' with h | h
        · left; simp only [strLess, if_pos rfl]; exact h
        · right; simp only [strLess, if_pos rfl]; exact h
      · rcases lt_or_gt_of_ne hxy with h | h
        · left; simp only [strLess, if_neg hxy]; exact decide_eq_true h
        · right; simp only [strLess, if_neg (Ne.symm hxy)]; exact decide_eq_true h

theorem addrLess_iff (a b : Addr) :
    Addr.less a b = true ↔
      a.fam < b.fam ∨ (a.fam = b.fam ∧ (a.val < b.val ∨
        (a.val = b.val ∧ strLess a.zone b.zone = true))) := by
  unfold Addr.less
  split_ifs with h1 h2
  · simp only [decide_eq_true_eq]
    constructor
    · intro h; exact Or.inl h
    · rintro (h | ⟨he, -⟩)
      · exact h
      · exact absurd he h1
  · push_neg at h1
    simp only [decide_eq_true_eq]
    constructor
    · intro h; exact Or.inr ⟨h1, Or.inl h⟩
    · rintro (h | ⟨-, h | ⟨he, -⟩⟩)
      · omega
      · exact h
      · exact absurd he h2
  · push_neg at h1 h2
    constructor
    · intro h; exact Or.inr ⟨h1, Or.inr ⟨h2, h⟩⟩
    · rintro (h | ⟨-, h | ⟨-, h⟩⟩)
      · omega
      · omega
      · exact h

theorem addrLess_trans (a b c : Addr) (hab : Addr.less a b = true)
    (hbc : Addr.less b c = true) : Addr.less a c = true := by
  rw [addrLess_iff] at hab hbc ⊢
  rcases hab with h1 | ⟨e1, h1⟩ <;> rcases hbc with h2 | ⟨e2, h2⟩
  · left; omega
  · left; omega
  · left; omega
  · right
    refine ⟨by omega, ?_⟩
    rcases h1 with h1 | ⟨f1, h1⟩ <;> rcases h2 with h2 | ⟨f2, h2⟩
    · left; omega
    · left; omega
    · left; omega
    · right
      exact ⟨by omega, strLess_trans _ _ _ h1 h2⟩

theorem addrLess_total (a b : Addr) (hne : a ≠ b) :
    Addr.less a b = true ∨ Addr.less b a = true := by
  by_cases h1 : a.fam = b.fam
  · by_cases h2 : a.val = b.val
    · have hz : a.zone ≠ b.zone := by
        intro hz
        apply hne
        cases a
        cases b
        simp_all
      rcases strLess_total _ _ hz with h | h
      · left; rw [addrLess_iff]; exact Or.inr ⟨h1, Or.inr ⟨h2, h⟩⟩
      · right; rw [addrLess_iff]; exact Or.inr ⟨h1.symm, Or.inr ⟨h2.symm, h⟩⟩
    · rcases Nat.lt_or_ge a.val b.val with h | h
      · left; rw [addrLess_iff]; exact Or.inr ⟨h1, Or.inl h⟩
      · right; rw [addrLess_iff]; exact Or.inr ⟨h1.symm, Or.inl (by omega)⟩
  · rcases Nat.lt_or_ge a.fam b.fam with h | h
    · left; rw [addrLess_iff]; exact Or.inl h
    · right; rw [addrLess_iff]; exact Or.inl (by omega)

theorem better_iff (a b : CandidateStat) :
    better a b = true ↔
      b.SuccessRate < a.SuccessRate ∨
      (a.SuccessRate = b.SuccessRate ∧ (a.P95 < b.P95 ∨
        (a.P95 = b.P95 ∧ (a.P50 < b.P50 ∨
          (a.P50 = b.P50 ∧ (a.JitterStd < b.JitterStd ∨
            (a.JitterStd = b.JitterStd ∧ Addr.less a.IP b.IP = true))))))) := by
  unfold better
  split_ifs with h1 h2 h3 h4
  · simp [h1]
  · push_neg at h1
    simp [h1, h2]
  · push_neg at h1 h2
    simp [h1, h2, h3]
  · push_neg at h1 h2 h3
    simp [h1, h2, h3, h4]
  · push_neg at h1 h2 h3 h4
    simp [h1, h2, h3, h4]

/-- Claim C4: the ranking comparator is transitive, and any two
statistics with distinct addresses are strictly ordered one way or the
other (no tie survives the address tie-break), so it defines a strict
total order on candidate statistics. -/
theorem better_strict_total_order (a b c : CandidateStat) :
    (better a b = true → better b c = true → better a c = true) ∧
    (a.IP ≠ b.IP → better a b = true ∨ better b a = true) := by
  constructor
  · intro hab hbc
    rw [better_iff] at hab hbc ⊢
    rcases hab with h1 | ⟨e1, hab⟩ <;> rcases hbc with h2 | ⟨e2, hbc⟩
    · left; linarith
    · left; linarith
    · left; linarith
    · right
      refine ⟨e1.trans e2, ?_⟩
      rcases hab with h1 | ⟨f1, hab⟩ <;> rcases hbc with h2 | ⟨f2, hbc⟩
      · left; omega
      · left; omega
      · left; omega
      · right
        refine ⟨f1.trans f2, ?_⟩
        rcases hab with h1 | ⟨g1, hab⟩ <;> rcases hbc with h2 | ⟨g2, hbc⟩
        · left; omega
        · left; omega
        · left; omega
        · right
          refine ⟨g1.trans g2, ?_⟩
          rcases hab with h1 | ⟨j1, hab⟩ <;> rcases hbc with h2 | ⟨j2, hbc⟩
          · left; omega
          · left; omega
          · left; omega
          · right
            exact ⟨j1.trans j2, addrLess_trans _ _ _ hab hbc⟩
  · intro hne
    rw [better_iff, better_iff]
    rcases lt_trichotomy a.SuccessRate b.SuccessRate with h | h | h
    · right; left; exact h
    · rcases lt_trichotomy a.P95 b.P95 with h95 | h95 | h95
      · left; right; exact ⟨h, Or.inl h95⟩
      · rcases lt_trichotomy a.P50 b.P50 with h50 | h50 | h50
        · left; right; exact ⟨h, Or.inr ⟨h95, Or.inl h50⟩⟩
        · rcases lt_trichotomy a.JitterStd b.JitterStd with hj | hj | hj
          · left; right; exact ⟨h, Or.inr ⟨h95, Or.inr ⟨h50, Or.inl hj⟩⟩⟩
          · rcases addrLess_total a.IP b.IP hne with hip | hip
            · left; right
              exact ⟨h, Or.inr ⟨h95, Or.inr ⟨h50, Or.inr ⟨hj, hip⟩⟩⟩⟩
            · right; right
              exact ⟨h.symm, Or.inr ⟨h95.symm, Or.inr ⟨h50.symm, Or.inr ⟨hj.symm, hip⟩⟩⟩⟩
          · right; right
            exact ⟨h.symm, Or.inr ⟨h95.symm, Or.inr ⟨h50.symm, Or.inl hj⟩⟩⟩
        · right; right
          exact ⟨h.symm, Or.inr ⟨h95.symm, Or.inl h50⟩⟩
      · right; right
        exact ⟨h.symm, Or.inl h95⟩
    · left; left; exact h

/-! ## Lemmas: domain parsing -/

theorem splitOnChar_ne_nil (sep : Char) : ∀ s : Str, splitOnChar sep s ≠ [] := by
  intro s
  cases s with
  | nil => simp [splitOnChar]
  | cons x xs =>
    unfold splitOnChar
    by_cases hx : x = sep
    · rw [if_pos hx]; simp
    · rw [if_neg hx]
      cases splitOnChar sep xs <;> simp

theorem mem_splitOnChar (sep : Char) :
    ∀ (s : Str) (c : Char), c ∈ s → c = sep ∨ ∃ l ∈ splitOnChar sep s, c ∈ l := by
  intro s
  induction s with
  | nil => intro c hc; simp at hc
  | cons x xs ih =>
    intro c hc
    unfold splitOnChar
    by_cases hx : x = sep
    · rw [if_pos hx]
      rcases List.mem_cons.mp hc with rfl | hc'
      · exact Or.inl hx
      · rcases ih c hc' with h | ⟨l, hl, hcl⟩
        · exact Or.inl h
        · exact Or.inr ⟨l, List.mem_cons_of_mem _ hl, hcl⟩
    · rw [if_neg hx]
      cases hs : splitOnChar sep xs with
      | nil => exact absurd hs (splitOnChar_ne_nil sep xs)
      | cons l ls =>
        rcases List.mem_cons.mp hc with rfl | hc'
        · exact Or.inr ⟨c :: l, List.mem_cons_self _ _, List.mem_cons_self _ _⟩
        · rcases ih c hc' with h | ⟨l', hl', hcl⟩
          · exact Or.inl h
          · rw [hs] at hl'
            rcases List.mem_cons.mp hl' with rfl | hl''
            · exact Or.inr ⟨x :: l', List.mem_cons_self _ _, List.mem_cons_of_mem _ hcl⟩
            · exact Or.inr ⟨l', List.mem_cons_of_mem _ hl'', hcl⟩

theorem parseLoop_nodup_aux :
    ∀ toks seen : List Str,
      (parseLoop toks seen).Nodup ∧ ∀ d ∈ parseLoop toks seen, d ∉ seen := by
  intro toks
  induction toks with
  | nil => intro seen; simp [parseLoop]
  | cons t ts ih =>
    intro seen
    unfold parseLoop
    cases hn : NormalizeDomain t with
    | none => exact ih seen
    | some d =>
      dsimp only
      by_cases hd : d ∈ seen
      · rw [if_pos hd]
        exact ih seen
      · rw [if_neg hd]
        obtain ⟨ihn, ihm⟩ := ih (d :: seen)
        refine ⟨List.nodup_cons.mpr ⟨?_, ihn⟩, ?_⟩
        · intro hmem
          exact (ihm d hmem) (List.mem_cons_self d seen)
        · intro x hx
          rcases List.mem_cons.mp hx with rfl | hx'
          · exact hd
          · intro hxs
            exact (ihm x hx') (List.mem_cons_of_mem _ hxs)

theorem parseLoop_valid :
    ∀ (toks seen : List Str) (d : Str), d ∈ parseLoop toks seen →
      ∃ t, NormalizeDomain t = some d := by
  intro toks
  induction toks with
  | nil => intro seen d hd; simp [parseLoop] at hd
  | cons t ts ih =>
    intro seen d hd
    unfold parseLoop at hd
    cases hn : NormalizeDomain t with
    | none =>
      rw [hn] at hd
      exact ih seen d hd
    | some d' =>
      rw [hn] at hd
      dsimp only at hd
      by_cases hd' : d' ∈ seen
      · rw [if_pos hd'] at hd
        exact ih seen d hd
      · rw [if_neg hd'] at hd
        rcases List.mem_cons.mp hd with rfl | hmem
        · exact ⟨t, hn⟩
        · exact ih _ d hmem

theorem normalizeDomain_isDomainName (t d : Str) (h : NormalizeDomain t = some d) :
    isDomainName d = true := by
  simp only [NormalizeDomain] at h
  split_ifs at h <;>
    first
      | (rw [Option.some.injEq] at h; subst h; assumption)
      | simp at h

theorem isDomainName_chars (d : Str) (h : isDomainName d = true) :
    ∀ c ∈ d, c = '.' ∨ isLabelChar c = true := by
  intro c hc
  rcases mem_splitOnChar '.' d c hc with h' | ⟨l, hl, hcl⟩
  · exact Or.inl h'
  · right
    unfold isDomainName at h
    split_ifs at h <;>
      first
        | exact (Bool.false_ne_true h).elim
        | (rw [List.all_eq_true] at h
           have hlab := h l hl
           simp only [Bool.and_eq_true, List.all_eq_true] at hlab
           exact hlab.2 c hcl)

theorem asciiToLower_fixed_of_label (c : Char) (h : isLabelChar c = true) :
    asciiToLower c = c := by
  unfold asciiToLower
  rw [if_neg]
  unfold isLabelChar at h
  simp only [Bool.or_eq_true, Bool.and_eq_true, decide_eq_true_eq, beq_iff_eq] at h
  omega

theorem isDomainName_lower_fixed (d : Str) (h : isDomainName d = true) :
    d.map asciiToLower = d := by
  have hch := isDomainName_chars d h
  have : ∀ c ∈ d, asciiToLower c = c := by
    intro c hc
    rcases hch c hc with rfl | hlab
    · decide
    · exact asciiToLower_fixed_of_label c hlab
  calc d.map asciiToLower = d.map id := List.map_congr_left this
  _ = d := List.map_id d

theorem dedupFirstAux_fuel :
    ∀ (fuel1 fuel2 : Nat) (l : List Str), l.length ≤ fuel1 → l.length ≤ fuel2 →
      dedupFirstAux fuel1 l = dedupFirstAux fuel2 l := by
  intro fuel1
  induction fuel1 with
  | zero =>
    intro fuel2 l h1 h2
    have : l = [] := List.eq_nil_of_length_eq_zero (by omega)
    subst this
    cases fuel2 <;> rfl
  | succ fuel1 ih =>
    intro fuel2 l h1 h2
    cases l with
    | nil => cases fuel2 <;> rfl
    | cons x xs =>
      cases fuel2 with
      | zero => simp at h2
      | succ fuel2 =>
        simp only [dedupFirstAux]
        have hf : (xs.filter fun y => decide (y ≠ x)).length ≤ xs.length :=
          List.length_filter_le _ _
        simp only [List.length_cons] at h1 h2
        rw [ih fuel2 _ (by omega) (by omega)]

theorem dedupFirst_cons (x : Str) (xs : List Str) :
    dedupFirst (x :: xs) = x :: dedupFirst (xs.filter fun y => decide (y ≠ x)) := by
  have hf : (xs.filter fun y => decide (y ≠ x)).length ≤ xs.length :=
    List.length_filter_le _ _
  simp only [dedupFirst, List.length_cons, dedupFirstAux]
  rw [dedupFirstAux_fuel xs.length (xs.filter fun y => decide (y ≠ x)).length _ hf
    (le_refl _)]

theorem dedupFirstAux_sublist :
    ∀ (fuel : Nat) (l : List Str), (dedupFirstAux fuel l).Sublist l := by
  intro fuel
  induction fuel with
  | zero => intro l; exact List.nil_sublist l
  | succ fuel ih =>
    intro l
    cases l with
    | nil => exact List.Sublist.refl []
    | cons x xs =>
      simp only [dedupFirstAux]
      exact List.Sublist.cons₂ x ((ih _).trans (List.filter_sublist xs))

/-- `dedupFirst` only deletes elements: its output is a sublist of its
input, hence in input order. -/
theorem dedupFirst_sublist (l : List Str) : (dedupFirst l).Sublist l :=
  dedupFirstAux_sublist _ _

/-- The dedup loop of `ParseDomains` equals keep-first deduplication of
the normalized token stream, with the tokens already in `seen` removed. -/
theorem parseLoop_eq_dedupFirst :
    ∀ (ts seen : List Str),
      parseLoop ts seen =
        dedupFirst ((ts.filterMap NormalizeDomain).filter fun d => decide (d ∉ seen)) := by
  intro ts
  induction ts with
  | nil => intro seen; rfl
  | cons t ts ih =>
    intro seen
    cases hN : NormalizeDomain t with
    | none =>
      simp only [parseLoop, hN, List.filterMap_cons]
      exact ih seen
    | some d =>
      simp only [parseLoop, hN, List.filterMap_cons]
      by_cases hd : d ∈ seen
      · rw [if_pos hd, List.filter_cons_of_neg (by simpa using hd)]
        exact ih seen
      · rw [if_neg hd, List.filter_cons_of_pos (by simpa using hd), dedupFirst_cons,
          ih (d :: seen)]
        have hpred : ((ts.filterMap NormalizeDomain).filter
              (fun x => decide (x ∉ seen))).filter (fun y => decide (y ≠ d)) =
            (ts.filterMap NormalizeDomain).filter fun x => decide (x ∉ d :: seen) := by
          rw [List.filter_filter]
          apply List.filter_congr
          intro a ha
          by_cases h1 : a = d <;> by_cases h2 : a ∈ seen <;> simp [h1, h2]
        rw [hpred]

/-- Claim C7: `ParseDomains` washes every token through comment
stripping, trailing-dot stripping and lowercasing, and deduplicates
case-insensitively while preserving first-seen order: its output equals
the keep-first deduplication of the stream of normalized tokens in input
order (each domain sits at the position of its first occurrence), it has
no duplicates, every element is a valid (hence all-lowercase) domain,
and the three-line input `"A.com\na.com\nA.COM."` yields exactly
`["a.com"]`. -/
theorem parseDomains_spec :
    ParseDomains "A.com\na.com\nA.COM.".data = ["a.com".data] ∧
    (∀ text : Str, ParseDomains text =
      dedupFirst (((splitLines (normalizeNewlines text)).flatMap
        lineTokens).filterMap NormalizeDomain)) ∧
    (∀ text : Str, (ParseDomains text).Nodup) ∧
    (∀ text : Str, ∀ d ∈ ParseDomains text,
      isDomainName d = true ∧ d.map asciiToLower = d) := by
  refine ⟨by decide, ?_, ?_, ?_⟩
  · intro text
    unfold ParseDomains
    rw [parseLoop_eq_dedupFirst]
    congr 1
    exact List.filter_eq_self.mpr fun a ha => by simp
  · intro text
    exact (parseLoop_nodup_aux _ []).1
  · intro text d hd
    obtain ⟨t, ht⟩ := parseLoop_valid _ [] d hd
    have hv := normalizeDomain_isDomainName t d ht
    exact ⟨hv, isDomainName_lower_fixed d hv⟩

/-! ## Lemmas: the quantile function -/

/-- The sorted copy `cp` that `quantile` builds. -/
def qSorted (samples : List Int) : List Int := List.insertionSort (· ≤ ·) samples

/-- The fractional index `pos` that `quantile` derives from `q`. -/
def qPos (samples : List Int) (q : ℚ) : ℚ := q * ((samples.length : ℚ) - 1)

/-- The integer part `idx` of the fractional index. -/
def qIdx (samples : List Int) (q : ℚ) : Nat := (⌊qPos samples q⌋).toNat

/-- The fractional part `frac` of the fractional index. -/
def qFrac (samples : List Int) (q : ℚ) : ℚ :=
  qPos samples q - (qIdx samples q : ℚ)

theorem qSorted_perm (samples : List Int) : (qSorted samples).Perm samples :=
  List.perm_insertionSort _ _

theorem qSorted_sorted (samples : List Int) : (qSorted samples).Sorted (· ≤ ·) :=
  List.sorted_insertionSort _ _

theorem qSorted_length (samples : List Int) :
    (qSorted samples).length = samples.length :=
  (qSorted_perm samples).length_eq

theorem headD_eq_getD (l : List Int) (h : l ≠ []) : l.headD 0 = l.getD 0 0 := by
  cases l with
  | nil => exact absurd rfl h
  | cons a t => rfl

theorem getLastD_eq_getD :
    ∀ l : List Int, l ≠ [] → ∀ d, l.getLastD d = l.getD (l.length - 1) 0 := by
  intro l
  induction l with
  | nil => intro h; exact absurd rfl h
  | cons a t ih =>
    intro h d
    cases t with
    | nil => rfl
    | cons b u =>
      have h2 := ih (by simp) a
      show (b :: u).getLastD a = _
      rw [h2]
      simp only [List.length_cons]
      rw [show u.length + 1 + 1 - 1 = u.length + 1 from rfl, List.getD_cons_succ]
      rfl

theorem sorted_getD_mono (l : List Int) (hs : l.Sorted (· ≤ ·)) {i j : Nat}
    (hij : i ≤ j) (hj : j < l.length) : l.getD i 0 ≤ l.getD j 0 := by
  have hi : i < l.length := lt_of_le_of_lt hij hj
  rw [List.getD_eq_get l 0 hi, List.getD_eq_get l 0 hj]
  rcases Nat.lt_or_ge i j with h | h
  · exact List.pairwise_iff_get.mp hs ⟨i, hi⟩ ⟨j, hj⟩ h
  · have hij2 : i = j := by omega
    subst hij2
    exact le_refl _

theorem getD_mem (l : List Int) {i : Nat} (h : i < l.length) : l.getD i 0 ∈ l := by
  rw [List.getD_eq_get l 0 h]
  exact List.get_mem l i h

theorem sorted_getD_zero_le (l : List Int) (hs : l.Sorted (· ≤ ·)) (x : Int)
    (hx : x ∈ l) : l.getD 0 0 ≤ x := by
  obtain ⟨⟨k, hk⟩, rfl⟩ := List.mem_iff_get.mp hx
  have := sorted_getD_mono l hs (Nat.zero_le k) hk
  rwa [List.getD_eq_get l 0 hk] at this

theorem sorted_le_getD_last (l : List Int) (hs : l.Sorted (· ≤ ·)) (x : Int)
    (hx : x ∈ l) : x ≤ l.getD (l.length - 1) 0 := by
  obtain ⟨⟨k, hk⟩, rfl⟩ := List.mem_iff_get.mp hx
  have := sorted_getD_mono l hs (show k ≤ l.length - 1 by omega) (by omega)
  rwa [List.getD_eq_get l 0 hk] at this

theorem truncToInt_ge (a : Int) (x : ℚ) (h : (a : ℚ) ≤ x) : a ≤ truncToInt x := by
  unfold truncToInt
  split_ifs with h0
  · exact Int.le_floor.mpr h
  · exact Int.cast_le.mp (le_trans h (Int.le_ceil x))

theorem truncToInt_le (b : Int) (x : ℚ) (h : x ≤ (b : ℚ)) : truncToInt x ≤ b := by
  unfold truncToInt
  split_ifs with h0
  · exact Int.cast_le.mp (le_trans (Int.floor_le x) h)
  · exact Int.ceil_le.mpr h

theorem truncToInt_mono (x y : ℚ) (h : x ≤ y) : truncToInt x ≤ truncToInt y := by
  unfold truncToInt
  by_cases hx : 0 ≤ x <;> by_cases hy : 0 ≤ y
  · rw [if_pos hx, if_pos hy]
    exact Int.floor_le_floor h
  · rw [if_pos hx, if_neg hy]
    linarith
  · rw [if_neg hx, if_pos hy]
    have h1 : (⌈x⌉ : ℤ) ≤ 0 := Int.ceil_le.mpr (by push_neg at hx; exact_mod_cast hx.le)
    have h2 : (0 : ℤ) ≤ ⌊y⌋ := Int.floor_nonneg.mpr hy
    omega
  · rw [if_neg hx, if_neg hy]
    exact Int.ceil_le_ceil h

theorem qPos_nonneg (s0 : Int) (rest : List Int) (q : ℚ) (h0 : 0 ≤ q) :
    0 ≤ qPos (s0 :: rest) q := by
  unfold qPos
  apply mul_nonneg h0
  simp only [List.length_cons]
  push_cast
  linarith [Nat.cast_nonneg (α := ℚ) rest.length]

theorem qIdx_cast (s0 : Int) (rest : List Int) (q : ℚ) (h0 : 0 ≤ q) :
    ((qIdx (s0 :: rest) q : Nat) : ℚ) = ((⌊qPos (s0 :: rest) q⌋ : ℤ) : ℚ) := by
  unfold qIdx
  exact_mod_cast Int.toNat_of_nonneg (Int.floor_nonneg.mpr (qPos_nonneg s0 rest q h0))

theorem qFrac_bounds (s0 : Int) (rest : List Int) (q : ℚ) (h0 : 0 ≤ q) :
    0 ≤ qFrac (s0 :: rest) q ∧ qFrac (s0 :: rest) q < 1 := by
  unfold qFrac
  rw [qIdx_cast s0 rest q h0]
  constructor
  · linarith [Int.floor_le (qPos (s0 :: rest) q)]
  · linarith [Int.lt_floor_add_one (qPos (s0 :: rest) q)]

theorem quantile_le_zero_eq (s0 : Int) (rest : List Int) (q : ℚ) (hq : q ≤ 0) :
    quantile (s0 :: rest) q = (qSorted (s0 :: rest)).headD 0 := by
  simp only [quantile, qSorted]
  rw [if_pos hq]

theorem quantile_one_le_eq (s0 : Int) (rest : List Int) (q : ℚ) (h0 : ¬q ≤ 0)
    (h1 : 1 ≤ q) :
    quantile (s0 :: rest) q = (qSorted (s0 :: rest)).getLastD 0 := by
  simp only [quantile, qSorted]
  rw [if_neg h0, if_pos h1]

theorem quantile_interior_eq (s0 : Int) (rest : List Int) (q : ℚ) (h0 : 0 < q)
    (h1 : q < 1) :
    quantile (s0 :: rest) q =
      if (s0 :: rest).length - 1 ≤ qIdx (s0 :: rest) q then
        (qSorted (s0 :: rest)).getLastD 0
      else
        truncToInt (((qSorted (s0 :: rest)).getD (qIdx (s0 :: rest) q) 0 : ℚ) +
          (((qSorted (s0 :: rest)).getD (qIdx (s0 :: rest) q + 1) 0 : ℚ) -
            ((qSorted (s0 :: rest)).getD (qIdx (s0 :: rest) q) 0 : ℚ)) *
          qFrac (s0 :: rest) q) := by
  simp only [quantile, qSorted, qIdx, qPos, qFrac]
  rw [if_neg (not_le.mpr h0), if_neg (not_le.mpr h1)]

theorem quantile_ge_head (s0 : Int) (rest : List Int) (q : ℚ) :
    (qSorted (s0 :: rest)).headD 0 ≤ quantile (s0 :: rest) q := by
  have hlen : (qSorted (s0 :: rest)).length = rest.length + 1 := by
    rw [qSorted_length]
    simp
  have hnn : qSorted (s0 :: rest) ≠ [] := by
    intro hc
    rw [hc] at hlen
    simp at hlen
  have hsorted : (qSorted (s0 :: rest)).Sorted (· ≤ ·) := qSorted_sorted _
  rw [headD_eq_getD _ hnn]
  by_cases hq0 : q ≤ 0
  · rw [quantile_le_zero_eq s0 rest q hq0, headD_eq_getD _ hnn]
  · by_cases hq1 : 1 ≤ q
    · rw [quantile_one_le_eq s0 rest q hq0 hq1, getLastD_eq_getD _ hnn]
      exact sorted_getD_mono _ hsorted (Nat.zero_le _) (by omega)
    · push_neg at hq0 hq1
      rw [quantile_interior_eq s0 rest q hq0 hq1]
      split_ifs with hg
      · rw [getLastD_eq_getD _ hnn]
        exact sorted_getD_mono _ hsorted (Nat.zero_le _) (by omega)
      · simp only [List.length_cons] at hg
        have hi1 : qIdx (s0 :: rest) q + 1 < (qSorted (s0 :: rest)).length := by omega
        have hab : (qSorted (s0 :: rest)).getD (qIdx (s0 :: rest) q) 0 ≤
            (qSorted (s0 :: rest)).getD (qIdx (s0 :: rest) q + 1) 0 :=
          sorted_getD_mono _ hsorted (Nat.le_succ _) hi1
        have hf := qFrac_bounds s0 rest q hq0.le
        have hv : (((qSorted (s0 :: rest)).getD (qIdx (s0 :: rest) q) 0 : Int) : ℚ) ≤
            ((qSorted (s0 :: rest)).getD (qIdx (s0 :: rest) q) 0 : ℚ) +
              (((qSorted (s0 :: rest)).getD (qIdx (s0 :: rest) q + 1) 0 : ℚ) -
                ((qSorted (s0 :: rest)).getD (qIdx (s0 :: rest) q) 0 : ℚ)) *
              qFrac (s0 :: rest) q := by
          have hmul : 0 ≤ (((qSorted (s0 :: rest)).getD (qIdx (s0 :: rest) q + 1) 0 : ℚ) -
              ((qSorted (s0 :: rest)).getD (qIdx (s0 :: rest) q) 0 : ℚ)) *
              qFrac (s0 :: rest) q :=
            mul_nonneg (sub_nonneg.mpr (Int.cast_le.mpr hab)) hf.1
          linarith
        calc (qSorted (s0 :: rest)).getD 0 0
            ≤ (qSorted (s0 :: rest)).getD (qIdx (s0 :: rest) q) 0 :=
              sorted_getD_mono _ hsorted (Nat.zero_le _) (by omega)
        _ ≤ _ := truncToInt_ge _ _ hv

theorem quantile_le_last (s0 : Int) (rest : List Int) (q : ℚ) :
    quantile (s0 :: rest) q ≤ (qSorted (s0 :: rest)).getLastD 0 := by
  have hlen : (qSorted (s0 :: rest)).length = rest.length + 1 := by
    rw [qSorted_length]
    simp
  have hnn : qSorted (s0 :: rest) ≠ [] := by
    intro hc
    rw [hc] at hlen
    simp at hlen
  have hsorted : (qSorted (s0 :: rest)).Sorted (· ≤ ·) := qSorted_sorted _
  rw [getLastD_eq_getD _ hnn]
  by_cases hq0 : q ≤ 0
  · rw [quantile_le_zero_eq s0 rest q hq0, headD_eq_getD _ hnn]
    exact sorted_getD_mono _ hsorted (Nat.zero_le _) (by omega)
  · by_cases hq1 : 1 ≤ q
    · rw [quantile_one_le_eq s0 rest q hq0 hq1, getLastD_eq_getD _ hnn]
    · push_neg at hq0 hq1
      rw [quantile_interior_eq s0 rest q hq0 hq1]
      split_ifs with hg
      · rw [getLastD_eq_getD _ hnn]
      · simp only [List.length_cons] at hg
        have hi1 : qIdx (s0 :: rest) q + 1 < (qSorted (s0 :: rest)).length := by omega
        have hab : (qSorted (s0 :: rest)).getD (qIdx (s0 :: rest) q) 0 ≤
            (qSorted (s0 :: rest)).getD (qIdx (s0 :: rest) q + 1) 0 :=
          sorted_getD_mono _ hsorted (Nat.le_succ _) hi1
        have hf := qFrac_bounds s0 rest q hq0.le
        have hv : ((qSorted (s0 :: rest)).getD (qIdx (s0 :: rest) q) 0 : ℚ) +
              (((qSorted (s0 :: rest)).getD (qIdx (s0 :: rest) q + 1) 0 : ℚ) -
                ((qSorted (s0 :: rest)).getD (qIdx (s0 :: rest) q) 0 : ℚ)) *
              qFrac (s0 :: rest) q ≤
            (((qSorted (s0 :: rest)).getD (qIdx (s0 :: rest) q + 1) 0 : Int) : ℚ) := by
          have hmul : 0 ≤ (((qSorted (s0 :: rest)).getD (qIdx (s0 :: rest) q + 1) 0 : ℚ) -
              ((qSorted (s0 :: rest)).getD (qIdx (s0 :: rest) q) 0 : ℚ)) *
              (1 - qFrac (s0 :: rest) q) :=
            mul_nonneg (sub_nonneg.mpr (Int.cast_le.mpr hab)) (by linarith [hf.2])
          nlinarith
        calc truncToInt (((qSorted (s0 :: rest)).getD (qIdx (s0 :: rest) q) 0 : ℚ) +
              (((qSorted (s0 :: rest)).getD (qIdx (s0 :: rest) q + 1) 0 : ℚ) -
                ((qSorted (s0 :: rest)).getD (qIdx (s0 :: rest) q) 0 : ℚ)) *
              qFrac (s0 :: rest) q)
            ≤ (qSorted (s0 :: rest)).getD (qIdx (s0 :: rest) q + 1) 0 :=
              truncToInt_le _ _ hv
        _ ≤ _ := sorted_getD_mono _ hsorted (by omega) (by omega)

theorem quantile_mono_aux (s0 : Int) (rest : List Int) (q1 q2 : ℚ) (h12 : q1 ≤ q2) :
    quantile (s0 :: rest) q1 ≤ quantile (s0 :: rest) q2 := by
  have hlen : (qSorted (s0 :: rest)).length = rest.length + 1 := by
    rw [qSorted_length]
    simp
  have hsorted : (qSorted (s0 :: rest)).Sorted (· ≤ ·) := qSorted_sorted _
  by_cases hA : q1 ≤ 0
  · rw [quantile_le_zero_eq s0 rest q1 hA]
    exact quantile_ge_head s0 rest q2
  · by_cases hB : 1 ≤ q2
    · have h2 : ¬q2 ≤ 0 := by push_neg at hA ⊢; linarith
      rw [quantile_one_le_eq s0 rest q2 h2 hB]
      exact quantile_le_last s0 rest q1
    · push_neg at hA hB
      have h11 : q1 < 1 := lt_of_le_of_lt h12 hB
      have h02 : 0 < q2 := lt_of_lt_of_le hA h12
      have hpos12 : qPos (s0 :: rest) q1 ≤ qPos (s0 :: rest) q2 := by
        unfold qPos
        apply mul_le_mul_of_nonneg_right h12
        simp only [List.length_cons]
        push_cast
        linarith [Nat.cast_nonneg (α := ℚ) rest.length]
      have hidx12 : qIdx (s0 :: rest) q1 ≤ qIdx (s0 :: rest) q2 := by
        unfold qIdx
        exact Int.toNat_le_toNat (Int.floor_le_floor hpos12)
      have hlast := quantile_le_last s0 rest q1
      rw [quantile_interior_eq s0 rest q1 hA h11] at hlast ⊢
      rw [quantile_interior_eq s0 rest q2 h02 hB]
      split_ifs with g1 g2 g3
      · exact le_refl _
      · exact absurd (le_trans g1 hidx12) g2
      · rw [if_neg g1] at hlast
        rw [getLastD_eq_getD _ (by intro hc; rw [hc] at hlen; simp at hlen)] at hlast
        rw [getLastD_eq_getD _ (by intro hc; rw [hc] at hlen; simp at hlen)]
        exact hlast
      · simp only [List.length_cons] at g1 g3
        have hi1 : qIdx (s0 :: rest) q1 + 1 < (qSorted (s0 :: rest)).length := by omega
        have hi2 : qIdx (s0 :: rest) q2 + 1 < (qSorted (s0 :: rest)).length := by omega
        have hf1 := qFrac_bounds s0 rest q1 hA.le
        have hf2 := qFrac_bounds s0 rest q2 h02.le
        rcases Nat.lt_or_ge (qIdx (s0 :: rest) q1) (qIdx (s0 :: rest) q2) with hlt | hge
        · have hab1 : (qSorted (s0 :: rest)).getD (qIdx (s0 :: rest) q1) 0 ≤
              (qSorted (s0 :: rest)).getD (qIdx (s0 :: rest) q1 + 1) 0 :=
            sorted_getD_mono _ hsorted (Nat.le_succ _) hi1
          have hab2 : (qSorted (s0 :: rest)).getD (qIdx (s0 :: rest) q2) 0 ≤
              (qSorted (s0 :: rest)).getD (qIdx (s0 :: rest) q2 + 1) 0 :=
            sorted_getD_mono _ hsorted (Nat.le_succ _) hi2
          have hv1 : ((qSorted (s0 :: rest)).getD (qIdx (s0 :: rest) q1) 0 : ℚ) +
                (((qSorted (s0 :: rest)).getD (qIdx (s0 :: rest) q1 + 1) 0 : ℚ) -
                  ((qSorted (s0 :: rest)).getD (qIdx (s0 :: rest) q1) 0 : ℚ)) *
                qFrac (s0 :: rest) q1 ≤
              (((qSorted (s0 :: rest)).getD (qIdx (s0 :: rest) q1 + 1) 0 : Int) : ℚ) := by
            have hmul : 0 ≤ (((qSorted (s0 :: rest)).getD (qIdx (s0 :: rest) q1 + 1) 0 : ℚ) -
                ((qSorted (s0 :: rest)).getD (qIdx (s0 :: rest) q1) 0 : ℚ)) *
                (1 - qFrac (s0 :: rest) q1) :=
              mul_nonneg (sub_nonneg.mpr (Int.cast_le.mpr hab1)) (by linarith [hf1.2])
            nlinarith
          have hv2 : (((qSorted (s0 :: rest)).getD (qIdx (s0 :: rest) q2) 0 : Int) : ℚ) ≤
              ((qSorted (s0 :: rest)).getD (qIdx (s0 :: rest) q2) 0 : ℚ) +
                (((qSorted (s0 :: rest)).getD (qIdx (s0 :: rest) q2 + 1) 0 : ℚ) -
                  ((qSorted (s0 :: rest)).getD (qIdx (s0 :: rest) q2) 0 : ℚ)) *
                qFrac (s0 :: rest) q2 := by
            have hmul : 0 ≤ (((qSorted (s0 :: rest)).getD (qIdx (s0 :: rest) q2 + 1) 0 : ℚ) -
                ((qSorted (s0 :: rest)).getD (qIdx (s0 :: rest) q2) 0 : ℚ)) *
                qFrac (s0 :: rest) q2 :=
              mul_nonneg (sub_nonneg.mpr (Int.cast_le.mpr hab2)) hf2.1
            linarith
          have hmid : (qSorted (s0 :: rest)).getD (qIdx (s0 :: rest) q1 + 1) 0 ≤
              (qSorted (s0 :: rest)).getD (qIdx (s0 :: rest) q2) 0 :=
            sorted_getD_mono _ hsorted (by omega) (by omega)
          calc truncToInt (((qSorted (s0 :: rest)).getD (qIdx (s0 :: rest) q1) 0 : ℚ) +
                (((qSorted (s0 :: rest)).getD (qIdx (s0 :: rest) q1 + 1) 0 : ℚ) -
                  ((qSorted (s0 :: rest)).getD (qIdx (s0 :: rest) q1) 0 : ℚ)) *
                qFrac (s0 :: rest) q1)
              ≤ (qSorted (s0 :: rest)).getD (qIdx (s0 :: rest) q1 + 1) 0 :=
                truncToInt_le _ _ hv1
          _ ≤ (qSorted (s0 :: rest)).getD (qIdx (s0 :: rest) q2) 0 := hmid
          _ ≤ _ := truncToInt_ge _ _ hv2
        · have heq : qIdx (s0 :: rest) q2 = qIdx (s0 :: rest) q1 := by omega
          rw [heq]
          have hab1 : (qSorted (s0 :: rest)).getD (qIdx (s0 :: rest) q1) 0 ≤
              (qSorted (s0 :: rest)).getD (qIdx (s0 :: rest) q1 + 1) 0 :=
            sorted_getD_mono _ hsorted (Nat.le_succ _) hi1
          have hfr : qFrac (s0 :: rest) q1 ≤ qFrac (s0 :: rest) q2 := by
            unfold qFrac
            rw [heq]
            linarith
          apply truncToInt_mono
          have hmul : 0 ≤ (((qSorted (s0 :: rest)).getD (qIdx (s0 :: rest) q1 + 1) 0 : ℚ) -
              ((qSorted (s0 :: rest)).getD (qIdx (s0 :: rest) q1) 0 : ℚ)) *
              (qFrac (s0 :: rest) q2 - qFrac (s0 :: rest) q1) :=
            mul_nonneg (sub_nonneg.mpr (Int.cast_le.mpr hab1)) (by linarith)
          nlinarith

/-- Claim C6: for every non-empty sample sequence, quantile 0 is the
minimum sample, quantile 1 the maximum sample, the quantile is
non-decreasing in q, and interior quantiles are the truncated linear
interpolation between the two neighboring order statistics of the sorted
copy. (The input sequence is not modified: the model is pure, and the Go
code sorts a freshly appended copy.) -/
theorem quantile_spec (samples : List Int) (hne : samples ≠ []) :
    (quantile samples 0 ∈ samples ∧ ∀ x ∈ samples, quantile samples 0 ≤ x) ∧
    (quantile samples 1 ∈ samples ∧ ∀ x ∈ samples, x ≤ quantile samples 1) ∧
    (∀ q1 q2 : ℚ, q1 ≤ q2 → quantile samples q1 ≤ quantile samples q2) ∧
    (∀ q : ℚ, 0 < q → q < 1 → ¬(samples.length - 1 ≤ qIdx samples q) →
      quantile samples q =
        truncToInt (((qSorted samples).getD (qIdx samples q) 0 : ℚ) +
          (((qSorted samples).getD (qIdx samples q + 1) 0 : ℚ) -
            ((qSorted samples).getD (qIdx samples q) 0 : ℚ)) * qFrac samples q)) := by
  obtain ⟨s0, rest, rfl⟩ := List.exists_cons_of_ne_nil hne
  have hlen : (qSorted (s0 :: rest)).length = rest.length + 1 := by
    rw [qSorted_length]
    simp
  have hnn : qSorted (s0 :: rest) ≠ [] := by
    intro hc
    rw [hc] at hlen
    simp at hlen
  have hsorted : (qSorted (s0 :: rest)).Sorted (· ≤ ·) := qSorted_sorted _
  have hperm := qSorted_perm (s0 :: rest)
  refine ⟨⟨?_, ?_⟩, ⟨?_, ?_⟩, ?_, ?_⟩
  · rw [quantile_le_zero_eq s0 rest 0 (le_refl 0), headD_eq_getD _ hnn]
    exact hperm.mem_iff.mp (getD_mem _ (by omega))
  · intro x hx
    rw [quantile_le_zero_eq s0 rest 0 (le_refl 0), headD_eq_getD _ hnn]
    exact sorted_getD_zero_le _ hsorted x (hperm.mem_iff.mpr hx)
  · rw [quantile_one_le_eq s0 rest 1 (by norm_num) (le_refl 1),
      getLastD_eq_getD _ hnn]
    exact hperm.mem_iff.mp (getD_mem _ (by omega))
  · intro x hx
    rw [quantile_one_le_eq s0 rest 1 (by norm_num) (le_refl 1),
      getLastD_eq_getD _ hnn]
    exact sorted_le_getD_last _ hsorted x (hperm.mem_iff.mpr hx)
  · intro q1 q2 h12
    exact quantile_mono_aux s0 rest q1 q2 h12
  · intro q h0 h1 hg
    rw [quantile_interior_eq s0 rest q h0 h1, if_neg hg]

/-! ## Lemmas: lines, joins and newline normalization (for the merge) -/

theorem splitOnChar_not_mem (sep : Char) :
    ∀ s : Str, ∀ l ∈ splitOnChar sep s, sep ∉ l := by
  intro s
  induction s with
  | nil =>
    intro l hl
    simp [splitOnChar] at hl
    simp [hl]
  | cons c rest ih =>
    intro l hl
    unfold splitOnChar at hl
    by_cases hc : c = sep
    · rw [if_pos hc] at hl
      rcases List.mem_cons.mp hl with rfl | hl'
      · simp
      · exact ih l hl'
    · rw [if_neg hc] at hl
      cases hs : splitOnChar sep rest with
      | nil => exact absurd hs (splitOnChar_ne_nil sep rest)
      | cons l0 ls =>
        rw [hs] at hl
        rcases List.mem_cons.mp hl with rfl | hl'
        · intro hmem
          rcases List.mem_cons.mp hmem with rfl | hmem'
          · exact hc rfl
          · exact ih l0 (by rw [hs]; exact List.mem_cons_self _ _) hmem'
        · exact ih l (by rw [hs]; exact List.mem_cons_of_mem _ hl')

theorem splitOnChar_of_not_mem (sep : Char) :
    ∀ s : Str, sep ∉ s → splitOnChar sep s = [s] := by
  intro s
  induction s with
  | nil => intro h; rfl
  | cons c rest ih =>
    intro h
    have hc : ¬c = sep := fun hc => h (by rw [hc]; exact List.mem_cons_self _ _)
    unfold splitOnChar
    rw [if_neg hc, ih (fun hm => h (List.mem_cons_of_mem _ hm))]

theorem splitOnChar_append_cons (sep : Char) :
    ∀ (a b : Str), sep ∉ a →
      splitOnChar sep (a ++ sep :: b) = a :: splitOnChar sep b := by
  intro a
  induction a with
  | nil =>
    intro b h
    show splitOnChar sep (sep :: b) = [] :: splitOnChar sep b
    conv_lhs => unfold splitOnChar
    rw [if_pos rfl]
  | cons c rest ih =>
    intro b h
    have hc : ¬c = sep := fun hc => h (by rw [hc]; exact List.mem_cons_self _ _)
    have hrest : sep ∉ rest := fun hm => h (List.mem_cons_of_mem _ hm)
    show splitOnChar sep (c :: (rest ++ sep :: b)) = _
    conv_lhs => unfold splitOnChar
    rw [if_neg hc, ih b hrest]

theorem joinLines_append_singleton :
    ∀ (K : List Str) (x : Str), K ≠ [] →
      joinLines (K ++ [x]) = joinLines K ++ '\n' :: x := by
  intro K
  induction K with
  | nil => intro x h; exact absurd rfl h
  | cons a t ih =>
    intro x h
    cases t with
    | nil => rfl
    | cons b u =>
      show joinLines (a :: ((b :: u) ++ [x])) = _
      have h1 : joinLines (a :: ((b :: u) ++ [x])) =
          a ++ '\n' :: joinLines ((b :: u) ++ [x]) := by
        cases u <;> rfl
      have h2 : joinLines (a :: b :: u) = a ++ '\n' :: joinLines (b :: u) := by
        cases u <;> rfl
      rw [h1, ih x (by simp), h2]
      simp [List.append_assoc]

theorem splitLines_joinLines :
    ∀ K : List Str, K ≠ [] → (∀ l ∈ K, '\n' ∉ l) →
      splitLines (joinLines K) = K := by
  intro K
  induction K with
  | nil => intro h; exact absurd rfl h
  | cons a t ih =>
    intro h hn
    cases t with
    | nil =>
      show splitOnChar '\n' a = [a]
      exact splitOnChar_of_not_mem '\n' a (hn a (List.mem_cons_self _ _))
    | cons b u =>
      have h2 : joinLines (a :: b :: u) = a ++ '\n' :: joinLines (b :: u) := by
        cases u <;> rfl
      show splitOnChar '\n' (joinLines (a :: b :: u)) = _
      rw [h2, splitOnChar_append_cons '\n' a _ (hn a (List.mem_cons_self _ _))]
      have := ih (by simp) (fun l hl => hn l (List.mem_cons_of_mem _ hl))
      rw [show splitLines (joinLines (b :: u)) = splitOnChar '\n' (joinLines (b :: u)) from rfl]
        at this
      rw [this]

theorem splitLines_joinLines_append :
    ∀ K : List Str, K ≠ [] → (∀ l ∈ K, '\n' ∉ l) → ∀ b : Str,
      splitLines (joinLines K ++ '\n' :: b) = K ++ splitLines b := by
  intro K
  induction K with
  | nil => intro h; exact absurd rfl h
  | cons a t ih =>
    intro h hn b
    cases t with
    | nil =>
      show splitOnChar '\n' (a ++ '\n' :: b) = _
      rw [splitOnChar_append_cons '\n' a b (hn a (List.mem_cons_self _ _))]
      rfl
    | cons c u =>
      have h2 : joinLines (a :: c :: u) = a ++ '\n' :: joinLines (c :: u) := by
        cases u <;> rfl
      show splitOnChar '\n' (joinLines (a :: c :: u) ++ '\n' :: b) = _
      rw [h2, List.append_assoc, List.cons_append]
      rw [splitOnChar_append_cons '\n' a _ (hn a (List.mem_cons_self _ _))]
      rw [show splitOnChar '\n' (joinLines (c :: u) ++ '\n' :: b) =
          (c :: u) ++ splitLines b from
        ih (by simp) (fun l hl => hn l (List.mem_cons_of_mem _ hl)) b]
      rfl

/-- The trailing empty lines that `TrimRight "\n"` removes from a joined
line list. -/
def dropTrailingNils (K : List Str) : List Str :=
  (K.reverse.dropWhile (fun l => l.isEmpty)).reverse

theorem head?_dropWhile_not {α : Type} (p : α → Bool) :
    ∀ l : List α, ∀ x, (l.dropWhile p).head? = some x → p x = false := by
  intro l
  induction l with
  | nil => intro x hx; simp at hx
  | cons a t ih =>
    intro x hx
    by_cases ha : p a = true
    · rw [List.dropWhile_cons_of_pos ha] at hx
      exact ih x hx
    · rw [List.dropWhile_cons_of_neg ha] at hx
      simp only [List.head?_cons, Option.some.injEq] at hx
      rw [← hx]
      exact Bool.not_eq_true _ |>.mp ha

theorem dropTrailingNils_subset (K : List Str) :
    ∀ l ∈ dropTrailingNils K, l ∈ K := by
  intro l hl
  unfold dropTrailingNils at hl
  rw [List.mem_reverse] at hl
  have := (List.dropWhile_sublist (fun l : Str => l.isEmpty)).subset hl
  rwa [List.mem_reverse] at this

theorem dropTrailingNils_getLast (K : List Str) :
    (dropTrailingNils K).getLast? ≠ some [] := by
  unfold dropTrailingNils
  rw [List.getLast?_reverse]
  intro hc
  have := head?_dropWhile_not (fun l : Str => l.isEmpty) K.reverse [] hc
  simp at this

theorem dropTrailingNils_append_nil (K : List Str) :
    dropTrailingNils (K ++ [[]]) = dropTrailingNils K := by
  unfold dropTrailingNils
  rw [List.reverse_append]
  rfl

theorem dropTrailingNils_of_getLast (K : List Str) (h : K.getLast? ≠ some []) :
    dropTrailingNils K = K := by
  unfold dropTrailingNils
  cases hr : K.reverse with
  | nil =>
    have : K = [] := by simpa using congrArg List.reverse hr
    rw [this]
    rfl
  | cons a t =>
    have ha : ¬a.isEmpty = true := by
      intro hae
      apply h
      rw [← List.head?_reverse, hr, List.head?_cons, List.isEmpty_iff.mp hae]
    rw [List.dropWhile_cons_of_neg ha, ← hr, List.reverse_reverse]

theorem trimRightNL_append_nl (s : Str) :
    trimRightNL (s ++ ['\n']) = trimRightNL s := by
  unfold trimRightNL
  rw [List.reverse_append]
  rfl

theorem trimRightNL_of_getLast (s : Str) (h : s.getLast? ≠ some '\n') :
    trimRightNL s = s := by
  unfold trimRightNL
  cases hr : s.reverse with
  | nil =>
    have : s = [] := by simpa using congrArg List.reverse hr
    rw [this]
    rfl
  | cons a t =>
    have ha : ¬(a == '\n') = true := by
      intro hae
      apply h
      rw [← List.head?_reverse, hr, List.head?_cons, beq_iff_eq.mp hae]
    have hd : List.dropWhile (fun c => c == '\n') (a :: t) = a :: t :=
      List.dropWhile_cons_of_neg ha
    rw [hd, ← hr, List.reverse_reverse]

theorem joinLines_ne_nil (K : List Str) (hne : K ≠ [])
    (hlast : K.getLast? ≠ some []) : joinLines K ≠ [] := by
  cases K with
  | nil => exact absurd rfl hne
  | cons a t =>
    cases t with
    | nil =>
      show a ≠ []
      intro hc
      apply hlast
      rw [hc]
      rfl
    | cons b u =>
      have h2 : joinLines (a :: b :: u) = a ++ '\n' :: joinLines (b :: u) := by
        cases u <;> rfl
      rw [h2]
      simp

theorem joinLines_getLast_ne_nl :
    ∀ K : List Str, K ≠ [] → K.getLast? ≠ some [] → (∀ l ∈ K, '\n' ∉ l) →
      (joinLines K).getLast? ≠ some '\n' := by
  intro K
  induction K with
  | nil => intro h; exact absurd rfl h
  | cons a t ih =>
    intro h hlast hn
    cases t with
    | nil =>
      show a.getLast? ≠ some '\n'
      intro hc
      have hmem : '\n' ∈ a := by
        have hane : a ≠ [] := by
          intro hae
          rw [hae] at hc
          simp at hc
        rw [List.getLast?_eq_getLast a hane] at hc
        have hm := List.getLast_mem hane
        rwa [Option.some.inj hc] at hm
      exact hn a (List.mem_cons_self _ _) hmem
    | cons b u =>
      have h2 : joinLines (a :: b :: u) = a ++ '\n' :: joinLines (b :: u) := by
        cases u <;> rfl
      rw [h2]
      have hlast2 : (b :: u).getLast? ≠ some [] := by
        intro hc
        apply hlast
        rw [List.getLast?_cons_cons]
        exact hc
      have hne2 := joinLines_ne_nil (b :: u) (by simp) hlast2
      have hsplit : a ++ '\n' :: joinLines (b :: u) =
          (a ++ ['\n']) ++ joinLines (b :: u) := by
        simp
      rw [hsplit, List.getLast?_append_of_ne_nil _ hne2]
      exact ih (by simp) hlast2 (fun l hl => hn l (List.mem_cons_of_mem _ hl))

theorem trimRightNL_joinLines :
    ∀ K : List Str, (∀ l ∈ K, '\n' ∉ l) →
      trimRightNL (joinLines K) = joinLines (dropTrailingNils K) := by
  intro K
  induction K using List.reverseRecOn with
  | nil => intro _; rfl
  | append_singleton K0 x ih =>
    intro hn
    by_cases hx : x = []
    · subst hx
      rw [dropTrailingNils_append_nil]
      cases hK0 : K0 with
      | nil => rfl
      | cons a t =>
        rw [← hK0]
        have hK0ne : K0 ≠ [] := by rw [hK0]; simp
        rw [joinLines_append_singleton K0 [] hK0ne]
        rw [show ('\n' : Char) :: ([] : Str) = ['\n'] from rfl]
        rw [trimRightNL_append_nl]
        exact ih (fun l hl => hn l (List.mem_append_left _ hl))
    · have hgl : (K0 ++ [x]).getLast? ≠ some [] := by
        rw [List.getLast?_concat]
        simpa using hx
      rw [dropTrailingNils_of_getLast _ hgl]
      apply trimRightNL_of_getLast
      apply joinLines_getLast_ne_nl (K0 ++ [x]) (by simp) hgl hn

theorem replCRLF_cons_ne (c : Char) (rest : Str) (hc : c ≠ '\r') :
    replCRLF (c :: rest) = c :: replCRLF rest := by
  conv_lhs => unfold replCRLF
  split
  · next rest' heq =>
    rw [List.cons.injEq] at heq
    exact absurd heq.1 hc
  · next c' rest' hne heq =>
    rw [List.cons.injEq] at heq
    rw [heq.1, heq.2]
  · next heq => simp at heq

theorem replCRLF_of_no_cr : ∀ s : Str, '\r' ∉ s → replCRLF s = s := by
  intro s
  induction s with
  | nil => intro _; rfl
  | cons c rest ih =>
    intro h
    have hc : c ≠ '\r' := fun hce => h (by rw [hce]; exact List.mem_cons_self _ _)
    rw [replCRLF_cons_ne c rest hc, ih (fun hm => h (List.mem_cons_of_mem _ hm))]

theorem no_cr_normalizeNewlines (s : Str) : '\r' ∉ normalizeNewlines s := by
  unfold normalizeNewlines
  intro hm
  rcases List.mem_map.mp hm with ⟨c, -, hc⟩
  by_cases h : c = '\r' <;> simp [h] at hc

theorem normalizeNewlines_of_no_cr (s : Str) (h : '\r' ∉ s) :
    normalizeNewlines s = s := by
  unfold normalizeNewlines
  rw [replCRLF_of_no_cr s h]
  calc s.map (fun c => if c = '\r' then '\n' else c) = s.map id := by
        apply List.map_congr_left
        intro c hc
        rw [if_neg (fun hc2 => h (by rw [← hc2]; exact hc))]
        rfl
  _ = s := List.map_id s

theorem mem_of_mem_splitOnChar (sep : Char) :
    ∀ (s : Str) (l : Str), l ∈ splitOnChar sep s → ∀ c ∈ l, c ∈ s := by
  intro s
  induction s with
  | nil =>
    intro l hl c hc
    simp [splitOnChar] at hl
    rw [hl] at hc
    simp at hc
  | cons x xs ih =>
    intro l hl c hc
    unfold splitOnChar at hl
    by_cases hx : x = sep
    · rw [if_pos hx] at hl
      rcases List.mem_cons.mp hl with rfl | hl'
      · simp at hc
      · exact List.mem_cons_of_mem _ (ih l hl' c hc)
    · rw [if_neg hx] at hl
      cases hs : splitOnChar sep xs with
      | nil => exact absurd hs (splitOnChar_ne_nil sep xs)
      | cons l0 ls =>
        rw [hs] at hl
        rcases List.mem_cons.mp hl with rfl | hl'
        · rcases List.mem_cons.mp hc with rfl | hc'
          · exact List.mem_cons_self _ _
          · refine List.mem_cons_of_mem _ (ih l0 ?_ c hc')
            rw [hs]
            exact List.mem_cons_self _ _
        · exact List.mem_cons_of_mem _ (ih l (by rw [hs]; exact List.mem_cons_of_mem _ hl') c hc)

/-! ## Lemmas: the managed-region scan -/

theorem stripManaged_cons_false_begin (l : Str) (rest : List Str)
    (hl : trimSpace l = beginMarker) :
    stripManaged (l :: rest) false = stripManaged rest true := by
  simp [stripManaged, hl]

theorem stripManaged_cons_false_keep (l : Str) (rest : List Str)
    (hl : trimSpace l ≠ beginMarker) :
    stripManaged (l :: rest) false = l :: stripManaged rest false := by
  simp [stripManaged, hl]

theorem stripManaged_cons_true_end (l : Str) (rest : List Str)
    (hl : trimSpace l = endMarker) :
    stripManaged (l :: rest) true = stripManaged rest false := by
  simp [stripManaged, hl]

theorem stripManaged_cons_true_skip (l : Str) (rest : List Str)
    (hl : trimSpace l ≠ endMarker) :
    stripManaged (l :: rest) true = stripManaged rest true := by
  simp [stripManaged, hl]

theorem stripManaged_no_begin :
    ∀ (L : List Str) (b : Bool), ∀ l ∈ stripManaged L b,
      trimSpace l ≠ beginMarker := by
  intro L
  induction L with
  | nil => intro b l hl; simp [stripManaged] at hl
  | cons x rest ih =>
    intro b l hl
    cases b with
    | false =>
      by_cases hx : trimSpace x = beginMarker
      · rw [stripManaged_cons_false_begin x rest hx] at hl
        exact ih true l hl
      · rw [stripManaged_cons_false_keep x rest hx] at hl
        rcases List.mem_cons.mp hl with rfl | hl'
        · exact hx
        · exact ih false l hl'
    | true =>
      by_cases hx : trimSpace x = endMarker
      · rw [stripManaged_cons_true_end x rest hx] at hl
        exact ih false l hl
      · rw [stripManaged_cons_true_skip x rest hx] at hl
        exact ih true l hl

theorem mem_stripManaged :
    ∀ (L : List Str) (b : Bool), ∀ l ∈ stripManaged L b, l ∈ L := by
  intro L
  induction L with
  | nil => intro b l hl; simp [stripManaged] at hl
  | cons x rest ih =>
    intro b l hl
    cases b with
    | false =>
      by_cases hx : trimSpace x = beginMarker
      · rw [stripManaged_cons_false_begin x rest hx] at hl
        exact List.mem_cons_of_mem _ (ih true l hl)
      · rw [stripManaged_cons_false_keep x rest hx] at hl
        rcases List.mem_cons.mp hl with rfl | hl'
        · exact List.mem_cons_self _ _
        · exact List.mem_cons_of_mem _ (ih false l hl')
    | true =>
      by_cases hx : trimSpace x = endMarker
      · rw [stripManaged_cons_true_end x rest hx] at hl
        exact List.mem_cons_of_mem _ (ih false l hl)
      · rw [stripManaged_cons_true_skip x rest hx] at hl
        exact List.mem_cons_of_mem _ (ih true l hl)

theorem stripManaged_append_kept (P : List Str)
    (hP : ∀ l ∈ P, trimSpace l ≠ beginMarker) (rest : List Str) :
    stripManaged (P ++ rest) false = P ++ stripManaged rest false := by
  induction P with
  | nil => rfl
  | cons x t ih =>
    rw [List.cons_append,
      stripManaged_cons_false_keep x _ (hP x (List.mem_cons_self _ _)),
      ih (fun l hl => hP l (List.mem_cons_of_mem _ hl)), List.cons_append]

theorem stripManaged_skip (M : List Str)
    (hM : ∀ l ∈ M, trimSpace l ≠ endMarker) (rest : List Str) :
    stripManaged (M ++ rest) true = stripManaged rest true := by
  induction M with
  | nil => rfl
  | cons x t ih =>
    rw [List.cons_append,
      stripManaged_cons_true_skip x _ (hM x (List.mem_cons_self _ _)),
      ih (fun l hl => hM l (List.mem_cons_of_mem _ hl))]

/-! ## Lemmas: the managed block's shape -/

theorem splitLines_eq (s : Str) : splitLines s = splitOnChar '\n' s := rfl

/-- The body lines of the managed block: one per non-blank mapping. -/
def mappingLines (ms : List Mapping) : List Str := ms.filterMap mappingLine?

/-- Side condition on one mapping's rendered line (trivially true for a
blank-skipped mapping): no embedded newline or carriage return, and the
line does not itself trim to either marker. -/
def goodMappingLine (m : Mapping) : Bool :=
  match mappingLine? m with
  | none => true
  | some l =>
    decide ('\n' ∉ l ∧ '\r' ∉ l ∧ trimSpace l ≠ beginMarker ∧ trimSpace l ≠ endMarker)

theorem goodMappingLine_spec (m : Mapping) (h : goodMappingLine m = true) (l : Str)
    (hl : mappingLine? m = some l) :
    '\n' ∉ l ∧ '\r' ∉ l ∧ trimSpace l ≠ beginMarker ∧ trimSpace l ≠ endMarker := by
  unfold goodMappingLine at h
  rw [hl] at h
  exact of_decide_eq_true h

theorem mappingLines_good (ms : List Mapping)
    (hml : ∀ m ∈ ms, goodMappingLine m = true) :
    ∀ l ∈ mappingLines ms,
      '\n' ∉ l ∧ '\r' ∉ l ∧ trimSpace l ≠ beginMarker ∧ trimSpace l ≠ endMarker := by
  intro l hl
  rcases List.mem_filterMap.mp hl with ⟨m, hm, he⟩
  exact goodMappingLine_spec m (hml m hm) l he

theorem buildManagedBlock_eq (ms : List Mapping) :
    BuildManagedBlock ms =
      beginMarker ++ '\n' ::
        (mappingLines ms).foldr (fun l acc => l ++ '\n' :: acc)
          (endMarker ++ ['\n']) := by
  unfold BuildManagedBlock
  congr 1
  rw [List.cons.injEq]
  refine ⟨rfl, ?_⟩
  induction ms with
  | nil => rfl
  | cons m t ih =>
    simp only [List.foldr_cons, mappingLines, List.filterMap_cons]
    cases hm : mappingLine? m with
    | none =>
      simp only
      rw [ih]
      rfl
    | some l =>
      simp only [List.foldr_cons]
      rw [ih]
      rfl

theorem splitLines_blockTail :
    ∀ mls : List Str, (∀ l ∈ mls, '\n' ∉ l) →
      splitLines (mls.foldr (fun l acc => l ++ '\n' :: acc) (endMarker ++ ['\n'])) =
        mls ++ [endMarker, []] := by
  intro mls
  induction mls with
  | nil =>
    intro _
    simp only [List.foldr_nil]
    rw [show (endMarker ++ ['\n'] : Str) = endMarker ++ '\n' :: [] from rfl,
      splitLines_eq, splitOnChar_append_cons '\n' endMarker [] (by decide)]
    rfl
  | cons l t ih =>
    intro hn
    simp only [List.foldr_cons]
    rw [splitLines_eq,
      splitOnChar_append_cons '\n' l _ (hn l (List.mem_cons_self _ _)),
      ← splitLines_eq, ih (fun x hx => hn x (List.mem_cons_of_mem _ hx))]
    rfl

theorem splitLines_block (ms : List Mapping)
    (hml : ∀ m ∈ ms, goodMappingLine m = true) :
    splitLines (BuildManagedBlock ms) =
      beginMarker :: (mappingLines ms ++ [endMarker, []]) := by
  rw [buildManagedBlock_eq, splitLines_eq,
    splitOnChar_append_cons '\n' beginMarker _ (by decide), ← splitLines_eq,
    splitLines_blockTail (mappingLines ms)
      (fun l hl => (mappingLines_good ms hml l hl).1)]

theorem mem_blockTail :
    ∀ (mls : List Str) (c : Char),
      c ∈ mls.foldr (fun l acc => l ++ '\n' :: acc) (endMarker ++ ['\n']) →
      c ∈ endMarker ∨ c = '\n' ∨ ∃ l ∈ mls, c ∈ l := by
  intro mls
  induction mls with
  | nil =>
    intro c hc
    rcases List.mem_append.mp hc with h | h
    · exact Or.inl h
    · right; left; simpa using h
  | cons l t ih =>
    intro c hc
    simp only [List.foldr_cons] at hc
    rcases List.mem_append.mp hc with h | h
    · exact Or.inr (Or.inr ⟨l, List.mem_cons_self _ _, h⟩)
    · rcases List.mem_cons.mp h with rfl | h'
      · exact Or.inr (Or.inl rfl)
      · rcases ih c h' with h'' | h'' | ⟨l', hl', hc'⟩
        · exact Or.inl h''
        · exact Or.inr (Or.inl h'')
        · exact Or.inr (Or.inr ⟨l', List.mem_cons_of_mem _ hl', hc'⟩)

theorem block_no_cr (ms : List Mapping)
    (hml : ∀ m ∈ ms, goodMappingLine m = true) :
    '\r' ∉ BuildManagedBlock ms := by
  rw [buildManagedBlock_eq]
  intro hm
  rcases List.mem_append.mp hm with h | h
  · exact absurd h (by decide)
  · rcases List.mem_cons.mp h with hq | h'
    · exact absurd hq (by decide)
    · rcases mem_blockTail (mappingLines ms) '\r' h' with h'' | h'' | ⟨l, hl, hc⟩
      · exact absurd h'' (by decide)
      · exact absurd h'' (by decide)
      · exact (mappingLines_good ms hml l hl).2.1 hc

theorem mem_joinLines :
    ∀ (K : List Str) (c : Char), c ∈ joinLines K → c = '\n' ∨ ∃ l ∈ K, c ∈ l := by
  intro K
  induction K with
  | nil => intro c hc; simp [joinLines] at hc
  | cons a t ih =>
    intro c hc
    cases t with
    | nil =>
      right
      exact ⟨a, List.mem_cons_self _ _, hc⟩
    | cons b u =>
      have h2 : joinLines (a :: b :: u) = a ++ '\n' :: joinLines (b :: u) := by
        cases u <;> rfl
      rw [h2] at hc
      rcases List.mem_append.mp hc with h | h
      · exact Or.inr ⟨a, List.mem_cons_self _ _, h⟩
      · rcases List.mem_cons.mp h with rfl | h'
        · exact Or.inl rfl
        · rcases ih c h' with h'' | ⟨l, hl, hc'⟩
          · exact Or.inl h''
          · exact Or.inr ⟨l, List.mem_cons_of_mem _ hl, hc'⟩

/-! ## Lemmas: the merge characterization and claim C3 -/

theorem applyManagedBlock_eq (existing : Str) (ms : List Mapping)
    (hml : ∀ m ∈ ms, goodMappingLine m = true) :
    ApplyManagedBlock existing (BuildManagedBlock ms) =
      (if dropTrailingNils
            (stripManaged (splitLines (normalizeNewlines existing)) false) = []
       then []
       else joinLines (dropTrailingNils
              (stripManaged (splitLines (normalizeNewlines existing)) false)) ++
            ['\n']) ++
        BuildManagedBlock ms := by
  simp only [ApplyManagedBlock]
  have hKnoNL : ∀ l ∈ stripManaged (splitLines (normalizeNewlines existing)) false,
      '\n' ∉ l :=
    fun l hl => splitOnChar_not_mem '\n' _ l (mem_stripManaged _ false l hl)
  rw [trimRightNL_joinLines _ hKnoNL,
    normalizeNewlines_of_no_cr _ (block_no_cr ms hml)]
  by_cases hK' : dropTrailingNils
      (stripManaged (splitLines (normalizeNewlines existing)) false) = []
  · rw [hK']
    simp [joinLines]
  · have hgl := dropTrailingNils_getLast
      (stripManaged (splitLines (normalizeNewlines existing)) false)
    have hjne := joinLines_ne_nil _ hK' hgl
    rw [if_pos hjne, if_neg hK']

theorem splitLines_applyManagedBlock (existing : Str) (ms : List Mapping)
    (hml : ∀ m ∈ ms, goodMappingLine m = true) :
    splitLines (ApplyManagedBlock existing (BuildManagedBlock ms)) =
      dropTrailingNils (stripManaged (splitLines (normalizeNewlines existing)) false) ++
        (beginMarker :: (mappingLines ms ++ [endMarker, []])) := by
  rw [applyManagedBlock_eq existing ms hml]
  by_cases hK' : dropTrailingNils
      (stripManaged (splitLines (normalizeNewlines existing)) false) = []
  · rw [hK', if_pos rfl, List.nil_append, List.nil_append]
    exact splitLines_block ms hml
  · rw [if_neg hK']
    have hKnoNL : ∀ l ∈ stripManaged (splitLines (normalizeNewlines existing)) false,
        '\n' ∉ l :=
      fun l hl => splitOnChar_not_mem '\n' _ l (mem_stripManaged _ false l hl)
    have hK'noNL : ∀ l ∈ dropTrailingNils
        (stripManaged (splitLines (normalizeNewlines existing)) false), '\n' ∉ l :=
      fun l hl => hKnoNL l (dropTrailingNils_subset _ l hl)
    have hshape : (joinLines (dropTrailingNils
          (stripManaged (splitLines (normalizeNewlines existing)) false)) ++ ['\n']) ++
        BuildManagedBlock ms =
        joinLines (dropTrailingNils
          (stripManaged (splitLines (normalizeNewlines existing)) false)) ++
        '\n' :: BuildManagedBlock ms := by
      simp
    rw [hshape, splitLines_joinLines_append _ hK' hK'noNL (BuildManagedBlock ms),
      splitLines_block ms hml]

theorem strip_applyManagedBlock (existing : Str) (ms : List Mapping)
    (horphan : ∀ l ∈ stripManaged (splitLines (normalizeNewlines existing)) false,
      trimSpace l ≠ endMarker)
    (hml : ∀ m ∈ ms, goodMappingLine m = true) :
    stripManaged (splitLines (ApplyManagedBlock existing (BuildManagedBlock ms)))
        false =
      dropTrailingNils (stripManaged (splitLines (normalizeNewlines existing)) false) ++
        [[]] := by
  rw [splitLines_applyManagedBlock existing ms hml]
  have hK'nb : ∀ l ∈ dropTrailingNils
      (stripManaged (splitLines (normalizeNewlines existing)) false),
      trimSpace l ≠ beginMarker :=
    fun l hl => stripManaged_no_begin _ _ l (dropTrailingNils_subset _ l hl)
  rw [stripManaged_append_kept _ hK'nb,
    stripManaged_cons_false_begin _ _ (by decide),
    stripManaged_skip (mappingLines ms)
      (fun l hl => (mappingLines_good ms hml l hl).2.2.2) [endMarker, []],
    stripManaged_cons_true_end _ _ (by decide),
    stripManaged_cons_false_keep _ _ (by decide)]
  rfl

theorem apply_no_cr (existing : Str) (ms : List Mapping)
    (hml : ∀ m ∈ ms, goodMappingLine m = true) :
    '\r' ∉ ApplyManagedBlock existing (BuildManagedBlock ms) := by
  rw [applyManagedBlock_eq existing ms hml]
  intro hm
  rcases List.mem_append.mp hm with hpre | hblk
  · by_cases hK' : dropTrailingNils
        (stripManaged (splitLines (normalizeNewlines existing)) false) = []
    · rw [hK', if_pos rfl] at hpre
      simp at hpre
    · rw [if_neg hK'] at hpre
      rcases List.mem_append.mp hpre with hj | hn
      · rcases mem_joinLines _ '\r' hj with h | ⟨l, hl, hc⟩
        · exact absurd h (by decide)
        · have hlK := mem_stripManaged _ false l (dropTrailingNils_subset _ l hl)
          have := mem_of_mem_splitOnChar '\n' _ l hlK '\r' hc
          exact no_cr_normalizeNewlines existing this
      · simp at hn
  · exact block_no_cr ms hml hblk

theorem applyManagedBlock_again (x : Str) (ms : List Mapping)
    (hml : ∀ m ∈ ms, goodMappingLine m = true) (hnocr : '\r' ∉ x)
    (K0 : List Str) (hstrip : stripManaged (splitLines x) false = K0 ++ [[]])
    (hK0 : dropTrailingNils K0 = K0) :
    ApplyManagedBlock x (BuildManagedBlock ms) =
      (if K0 = [] then [] else joinLines K0 ++ ['\n']) ++ BuildManagedBlock ms := by
  rw [applyManagedBlock_eq x ms hml, normalizeNewlines_of_no_cr x hnocr, hstrip,
    dropTrailingNils_append_nil, hK0]

/-- Claim C3 (amended): when the content kept outside managed regions has
no orphan line trimming to the end marker, and every rendered mapping
line is newline- and carriage-return-free and does not trim to either
marker, the render/merge step is idempotent — applying it twice with the
same mappings equals applying it once — and its result contains exactly
one begin-marker line and exactly one end-marker line. (Without the side
conditions the property fails; see the counterexample.) -/
theorem applyManagedBlock_idempotent (existing : Str) (ms : List Mapping)
    (horphan : ∀ l ∈ stripManaged (splitLines (normalizeNewlines existing)) false,
      trimSpace l ≠ endMarker)
    (hml : ∀ m ∈ ms, goodMappingLine m = true) :
    ApplyManagedBlock (ApplyManagedBlock existing (BuildManagedBlock ms))
        (BuildManagedBlock ms) =
      ApplyManagedBlock existing (BuildManagedBlock ms) ∧
    markerLineCount (ApplyManagedBlock existing (BuildManagedBlock ms))
      beginMarker = 1 ∧
    markerLineCount (ApplyManagedBlock existing (BuildManagedBlock ms))
      endMarker = 1 := by
  have hK'nb : ∀ l ∈ dropTrailingNils
      (stripManaged (splitLines (normalizeNewlines existing)) false),
      trimSpace l ≠ beginMarker :=
    fun l hl => stripManaged_no_begin _ _ l (dropTrailingNils_subset _ l hl)
  have hK'ne : ∀ l ∈ dropTrailingNils
      (stripManaged (splitLines (normalizeNewlines existing)) false),
      trimSpace l ≠ endMarker :=
    fun l hl => horphan l (dropTrailingNils_subset _ l hl)
  refine ⟨?_, ?_, ?_⟩
  · rw [applyManagedBlock_again (ApplyManagedBlock existing (BuildManagedBlock ms))
      ms hml (apply_no_cr existing ms hml) _
      (strip_applyManagedBlock existing ms horphan hml)
      (dropTrailingNils_of_getLast _ (dropTrailingNils_getLast _)),
      ← applyManagedBlock_eq existing ms hml]
  · unfold markerLineCount
    rw [splitLines_applyManagedBlock existing ms hml, List.filter_append]
    have h1 : (dropTrailingNils
        (stripManaged (splitLines (normalizeNewlines existing)) false)).filter
        (fun l => decide (trimSpace l = beginMarker)) = [] :=
      List.filter_eq_nil_iff.mpr (fun a ha => by simpa using hK'nb a ha)
    have h2 : (mappingLines ms).filter
        (fun l => decide (trimSpace l = beginMarker)) = [] :=
      List.filter_eq_nil_iff.mpr
        (fun a ha => by simpa using (mappingLines_good ms hml a ha).2.2.1)
    rw [h1, List.filter_cons_of_pos (by decide), List.filter_append, h2,
      List.filter_cons_of_neg (by decide), List.filter_cons_of_neg (by decide)]
    rfl
  · unfold markerLineCount
    rw [splitLines_applyManagedBlock existing ms hml, List.filter_append]
    have h1 : (dropTrailingNils
        (stripManaged (splitLines (normalizeNewlines existing)) false)).filter
        (fun l => decide (trimSpace l = endMarker)) = [] :=
      List.filter_eq_nil_iff.mpr (fun a ha => by simpa using hK'ne a ha)
    have h2 : (mappingLines ms).filter
        (fun l => decide (trimSpace l = endMarker)) = [] :=
      List.filter_eq_nil_iff.mpr
        (fun a ha => by simpa using (mappingLines_good ms hml a ha).2.2.2)
    rw [h1, List.filter_cons_of_neg (by decide), List.filter_append, h2,
      List.filter_cons_of_pos (by decide), List.filter_cons_of_neg (by decide)]
    rfl

/-- Claim C3 counterexample: merging into an existing text that consists
of a single orphan end-marker line keeps that line (the scan only removes
regions opened by a begin marker) and appends a fresh block, so the
result has two end-marker lines — the claim's unconditional "exactly one
end marker line" is false. -/
theorem applyManagedBlock_counterexample :
    ¬markerLineCount (ApplyManagedBlock ("# ip-opt-gui end".data)
        (BuildManagedBlock [])) endMarker = 1 := by
  decide

/-! ## Concrete witnesses -/

theorem backupFile_spec_witness :
    ∃ d8 d6 : Str, d8.length = 8 ∧ d8.all Char.isDigit = true ∧
      d6.length = 6 ∧ d6.all Char.isDigit = true ∧
      backupFile [] "/etc".data "hosts".data "x".data
          ⟨⟨2026, 10, 11, 19, 3, 5⟩, none, none⟩ =
        .ok (fsWrite [] ("/etc".data,
              "hosts".data ++ bakSep ++ (d8 ++ '_' :: d6)) "x".data,
          ("/etc".data, "hosts".data ++ bakSep ++ (d8 ++ '_' :: d6))) ∧
      fsRead (fsWrite [] ("/etc".data,
            "hosts".data ++ bakSep ++ (d8 ++ '_' :: d6)) "x".data)
          ("/etc".data, "hosts".data ++ bakSep ++ (d8 ++ '_' :: d6)) =
        some "x".data :=
  backupFile_spec [] "/etc".data "hosts".data "x".data
    ⟨⟨2026, 10, 11, 19, 3, 5⟩, none, none⟩ rfl (by decide) (by decide) (by decide)
    (by decide) (by decide) (by decide)

def ceC2FS : FS := [(("/etc".data, "hosts".data), "127.0.0.1 localhost\n".data)]

def ceC2MS : List Mapping := [⟨"1.2.3.4".data, "example.com".data⟩]

def ceC2Env : WriteEnv := ⟨⟨2026, 10, 11, 19, 3, 5⟩, none, none⟩

theorem writeWithBackup_spec_witness :
    fsRead (WriteWithBackup ceC2FS "/etc".data "hosts".data ceC2MS ceC2Env).1
        ("/etc".data, "hosts".data ++ bakSep ++ fmtTimestamp ceC2Env.now) =
      some "127.0.0.1 localhost\n".data ∧
    fsRead (WriteWithBackup ceC2FS "/etc".data "hosts".data ceC2MS ceC2Env).1
        ("/etc".data, "hosts".data) =
      some (ApplyManagedBlock "127.0.0.1 localhost\n".data
        (BuildManagedBlock ceC2MS)) :=
  ⟨((writeWithBackup_spec ceC2FS "/etc".data "hosts".data ceC2MS ceC2Env
      "127.0.0.1 localhost\n".data (by decide)).2 rfl rfl).2.1,
   ((writeWithBackup_spec ceC2FS "/etc".data "hosts".data ceC2MS ceC2Env
      "127.0.0.1 localhost\n".data (by decide)).2 rfl rfl).2.2⟩

def ceC3Existing : Str :=
  "127.0.0.1 localhost\n# ip-opt-gui begin\n1.1.1.1 a.com\n# ip-opt-gui end\n".data

def ceC3MS : List Mapping := [⟨"2.2.2.2".data, "b.com".data⟩]

theorem applyManagedBlock_idempotent_witness :
    ApplyManagedBlock (ApplyManagedBlock ceC3Existing (BuildManagedBlock ceC3MS))
        (BuildManagedBlock ceC3MS) =
      ApplyManagedBlock ceC3Existing (BuildManagedBlock ceC3MS) ∧
    markerLineCount (ApplyManagedBlock ceC3Existing (BuildManagedBlock ceC3MS))
      beginMarker = 1 ∧
    markerLineCount (ApplyManagedBlock ceC3Existing (BuildManagedBlock ceC3MS))
      endMarker = 1 :=
  applyManagedBlock_idempotent ceC3Existing ceC3MS (by decide) (by decide)

def ceC5Env1 : ProbeEnv := ⟨fun _ => none, fun _ => .error "dial".data⟩

def ceC5Env2 : ProbeEnv := ⟨fun _ => none, fun _ => .ok 5⟩

theorem probe_zero_samples_sentinel_witness :
    (ProbeCandidate ceC5Env1 ⟨4, 1, []⟩ 1000 2).P50 = 1000 ∧
    (ProbeCandidate ceC5Env1 ⟨4, 1, []⟩ 1000 2).P95 = 1000 ∧
    (ProbeCandidate ceC5Env1 ⟨4, 1, []⟩ 1000 2).JitterStd = 1000 ∧
    0 < (ProbeCandidate ceC5Env2 ⟨4, 2, []⟩ 1000 2).Attempts ∧
    better (ProbeCandidate ceC5Env2 ⟨4, 2, []⟩ 1000 2)
      (ProbeCandidate ceC5Env1 ⟨4, 1, []⟩ 1000 2) = true :=
  probe_zero_samples_sentinel ceC5Env1 ceC5Env2 ⟨4, 1, []⟩ ⟨4, 2, []⟩ 1000 2
    (by decide) (by decide)

theorem quantile_spec_witness :
    quantile [30, 10, 20] 0 ∈ ([30, 10, 20] : List Int) ∧
    (∀ x ∈ ([30, 10, 20] : List Int), quantile [30, 10, 20] 0 ≤ x) ∧
    quantile [30, 10, 20] 1 ∈ ([30, 10, 20] : List Int) ∧
    (∀ x ∈ ([30, 10, 20] : List Int), x ≤ quantile [30, 10, 20] 1) :=
  ⟨(quantile_spec [30, 10, 20] (by decide)).1.1,
   (quantile_spec [30, 10, 20] (by decide)).1.2,
   (quantile_spec [30, 10, 20] (by decide)).2.1.1,
   (quantile_spec [30, 10, 20] (by decide)).2.1.2⟩

theorem run_dispatch_spec_witness :
    (runResults (Run ceC1Env ["a".data, "b".data] ceC1Cfg)).length =
      firstCancel ceC1Env 2 ∧
    firstCancel ceC1Env 2 ≤ 2 :=
  ⟨(run_dispatch_spec ceC1Env ["a".data, "b".data] ceC1Cfg
      (by decide) (by decide)).2.1,
   (run_dispatch_spec ceC1Env ["a".data, "b".data] ceC1Cfg
      (by decide) (by decide)).2.2.1⟩
